import Mathlib

set_option linter.unusedVariables false
set_option linter.unnecessarySimpa false
set_option linter.unreachableTactic false
set_option linter.unusedTactic false

/-!  # go-cmark: specification checks over a shallow embedding

The Go wrapper `src/cmark.go` is a thin cgo binding: its own logic
(error mapping, status discarding, the `io.Writer` contract) is embedded
here directly from the source.  The engine behind the cgo boundary
(streaming feeder, two-phase block/inline parser, renderers, node
operations) is not part of the repository; those parts are modelled from
the specification's description and marked as such.  All definitions are
executable; fallible passes return `Option`, and the totality theorems
show the fuel-indexed passes always succeed.
-/

/-! ### Streaming feeder (modelled from the spec)

Modelled from the spec: `cmark_parser_feed` is not in `src/`; the spec
says the parser "retains partial-line and partial-sequence state between
calls" and normalizes CR/LF/CRLF line terminators regardless of chunking.
The state keeps the completed lines, the bytes of the current partial
line, and whether the previous byte was a CR (so a following LF is part
of the same terminator). -/
structure PState where
  lines : List (List Nat)
  pending : List Nat
  lastCR : Bool
deriving DecidableEq

def newParser : PState := ⟨[], [], false⟩

/-- One byte of streaming input: LF after CR is swallowed, LF and CR end
the current line, anything else extends the partial line. -/
def feedByte (p : PState) (b : Nat) : PState :=
  if p.lastCR && b == 10 then { p with lastCR := false }
  else if b == 10 then ⟨p.lines ++ [p.pending], [], false⟩
  else if b == 13 then ⟨p.lines ++ [p.pending], [], true⟩
  else ⟨p.lines, p.pending ++ [b], false⟩

def feedBytes (p : PState) (bs : List Nat) : PState := bs.foldl feedByte p

/-- `Parser.Write` from `cmark.go`: feeds the bytes to the engine and
returns `(len(b), nil)` unconditionally — the error result is always
`none`. -/
def Parser.Write (p : PState) (bs : List Nat) : PState × Nat × Option String :=
  (feedBytes p bs, bs.length, none)

/-- Feeding a document as a sequence of chunks through `Parser.Write`. -/
def writeAll (p : PState) (cs : List (List Nat)) : PState :=
  cs.foldl (fun q c => (Parser.Write q c).1) p

/-- Finishing the stream: the trailing partial line, if any, becomes a
final line. -/
def finishLines (p : PState) : List (List Nat) :=
  p.lines ++ (if p.pending.isEmpty then [] else [p.pending])


/-! ### Byte-string helpers -/

/-- Bytes of an ASCII string literal, used to spell tag names and fixed
output fragments. -/
def strB (s : String) : List Nat := s.data.map Char.toNat

/-- ASCII lowercasing of a byte (used for the case-insensitive HTML tag
matching). -/
def lower (b : Nat) : Nat := if 65 ≤ b && b ≤ 90 then b + 32 else b

def isAlphaB (b : Nat) : Bool := (65 ≤ b && b ≤ 90) || (97 ≤ b && b ≤ 122)

def isDigitB (b : Nat) : Bool := 48 ≤ b && b ≤ 57

/-- Whitespace bytes inside inline constructs (space, tab, LF, CR). -/
def isWsB (b : Nat) : Bool := b == 32 || b == 9 || b == 10 || b == 13

def countLead : List Nat → Nat
  | b :: r => if b == 32 then countLead r + 1 else 0
  | [] => 0

def stripLead (l : List Nat) : List Nat := l.drop (countLead l)

/-- Remove at most `k` leading space bytes. -/
def stripUpTo : Nat → List Nat → List Nat
  | 0, l => l
  | _ + 1, [] => []
  | k + 1, b :: r => if b == 32 then stripUpTo k r else b :: r

def rtrimSp (l : List Nat) : List Nat :=
  (l.reverse.dropWhile (fun b => b == 32 || b == 9)).reverse

def isBlankL (l : List Nat) : Bool := l.all (fun b => b == 32 || b == 9)

/-- Length of the leading run of byte `ch`. -/
def runLen (ch : Nat) : List Nat → Nat
  | [] => 0
  | b :: r => if b == ch then runLen ch r + 1 else 0

/-- Lines are joined by newline bytes when a leaf block's raw inline
text is assembled. -/
def joinNl : List (List Nat) → List Nat
  | [] => []
  | [l] => l
  | l :: r => l ++ 10 :: joinNl r

/-! ### Inline and block AST (modelled from the spec)

Modelled from the spec: the engine behind the cgo boundary is not in
`src/`; the node kinds are the block and inline kinds the spec lists for
the AST. -/

inductive Inline where
  | text (s : List Nat)
  | soft
  | hard
  | code (s : List Nat)
  | htmlI (s : List Nat)
  | emph (c : List Inline)
  | strong (c : List Inline)
  | link (dest title : List Nat) (c : List Inline)
  | image (dest title : List Nat) (c : List Inline)
  | customI (onEnter onExit : List Nat) (c : List Inline)

/-- The block node kinds of the spec. -/
inductive Block where
  | paragraph (c : List Inline)
  | heading (lvl : Nat) (c : List Inline)
  | codeBlock (info : List Nat) (lit : List Nat)
  | htmlBlock (lit : List Nat)
  | thematicBreak
  | blockQuote (c : List Block)
  | item (c : List Block)
  | list (bullet : Bool) (mch : Nat) (start : Nat) (tight : Bool) (items : List Block)
  | customB (onEnter onExit : List Nat) (c : List Block)

/-- A document is the list of top-level blocks of the root node. -/
abbrev Doc := List Block

/-! ### Flanking classes (modelled from the spec)

Modelled from the spec: the left and right flanking rules with
whitespace/punctuation classes.  The classes are ASCII; bytes that are
part of multi-byte UTF-8 sequences (≥ 128) are treated as alphanumeric,
the common case for non-ASCII text.  The absent byte (start or end of
the text) counts as whitespace. -/

def isWhiteB : Option Nat → Bool
  | none => true
  | some b => b == 32 || b == 9 || b == 10 || b == 13 || b == 11 || b == 12

def isPunctB : Option Nat → Bool
  | none => false
  | some b =>
      (33 ≤ b && b ≤ 47) || (58 ≤ b && b ≤ 64) ||
      (91 ≤ b && b ≤ 96) || (123 ≤ b && b ≤ 126)

/-- A delimiter run with byte `pb` before it and `nb` after it is
left-flanking. -/
def leftFlank (pb nb : Option Nat) : Bool :=
  !isWhiteB nb && (!isPunctB nb || isWhiteB pb || isPunctB pb)

/-- A delimiter run with byte `pb` before it and `nb` after it is
right-flanking. -/
def rightFlank (pb nb : Option Nat) : Bool :=
  !isWhiteB pb && (!isPunctB pb || isWhiteB nb || isPunctB nb)

/-- Whether a `*` or `_` run may open emphasis: `_` additionally
requires not being right-flanking unless preceded by punctuation. -/
def canOpenD (ch : Nat) (pb nb : Option Nat) : Bool :=
  if ch == 95 then leftFlank pb nb && (!rightFlank pb nb || isPunctB pb)
  else leftFlank pb nb

/-- Whether a `*` or `_` run may close emphasis: `_` additionally
requires not being left-flanking unless followed by punctuation. -/
def canCloseD (ch : Nat) (pb nb : Option Nat) : Bool :=
  if ch == 95 then rightFlank pb nb && (!leftFlank pb nb || isPunctB nb)
  else rightFlank pb nb

/-! ### Inline work items (modelled from the spec)

Modelled from the spec: the inline pass tokenizes each leaf block's raw
text into literal runs, delimiter runs, brackets, autolinks and raw
inline HTML, and resolves emphasis/strong over a delimiter stack with
the nearest-compatible-opener and multiple-of-3 rules. -/

/-- Work items of the inline pass: literal text, soft and hard breaks,
unresolved `*`/`_` delimiter runs, unresolved opening brackets, and
already-built inline nodes. -/
inductive IItem where
  | text (s : List Nat)
  | soft
  | hard
  | delim (ch : Nat) (len : Nat) (canOpen canClose : Bool)
  | obracket (img : Bool) (active : Bool)
  | node (i : Inline)

/-- A leftover work item becomes literal content: an unconsumed
delimiter run turns back into its bytes, an unmatched bracket into a
literal `[` or `![`. -/
def toInlineItem : IItem → Inline
  | .text s => .text s
  | .soft => .soft
  | .hard => .hard
  | .delim ch n _ _ => .text (List.replicate n ch)
  | .obracket img _ => .text (if img then [33, 91] else [91])
  | .node i => i

def dLen : IItem → Nat
  | .delim _ n _ _ => n
  | _ => 0

/-- Total length of the unresolved delimiter runs in a list of items. -/
def sumD : List IItem → Nat
  | [] => 0
  | .delim _ n _ _ :: r => n + sumD r
  | _ :: r => sumD r

/-- Scan backward (down the stack) for the nearest compatible opener of
the same delimiter byte for a closer of length `clen` and can-open
status `copen`; skips candidates ruled out by the multiple-of-3 rule.
Returns the items above the opener, the opener's run data, and the
items below it. -/
def scanOpener (ch clen : Nat) (copen : Bool) :
    List IItem → Option (List IItem × Nat × Bool × Bool × List IItem)
  | [] => none
  | .delim och olen oopen oclose :: rest =>
      if och == ch && oopen && olen != 0 &&
          (!(copen || oclose) || (olen + clen) % 3 != 0 ||
            ((olen % 3 == 0) && (clen % 3 == 0))) then
        some ([], olen, oopen, oclose, rest)
      else
        match scanOpener ch clen copen rest with
        | some (above, a, b, c, below) =>
            some (.delim och olen oopen oclose :: above, a, b, c, below)
        | none => none
  | it :: rest =>
      match scanOpener ch clen copen rest with
      | some (above, a, b, c, below) => some (it :: above, a, b, c, below)
      | none => none

/-- One fuel-indexed pass of the delimiter-stack resolution: `left` is
the processed stack (reversed), `right` the items still to process.  A
closer searches the stack for its nearest compatible opener; a match
consumes one or two delimiters from each side and wraps the items in
between into an `emph`/`strong` node. -/
def procEmph : Nat → List IItem → List IItem → Option (List Inline)
  | 0, _, _ => none
  | _ + 1, left, [] => some ((left.reverse).map toInlineItem)
  | fuel + 1, left, r :: rs =>
    match r with
    | .delim ch clen copen cclose =>
      if cclose && clen != 0 then
        match scanOpener ch clen copen left with
        | some (above, olen, oopen, oclose, below) =>
          let use := if 2 ≤ olen ∧ 2 ≤ clen then 2 else 1
          let content := (above.reverse).map toInlineItem
          let nd : Inline := if use == 2 then .strong content else .emph content
          let left' := IItem.node nd ::
            (if use < olen then IItem.delim ch (olen - use) oopen oclose :: below else below)
          let right' := if use < clen then IItem.delim ch (clen - use) copen cclose :: rs else rs
          procEmph fuel left' right'
        | none => procEmph fuel (r :: left) rs
      else procEmph fuel (r :: left) rs
    | _ => procEmph fuel (r :: left) rs

/-- Fuel that suffices for the delimiter pass (proved below). -/
def pFuel (ts : List IItem) : Nat := 2 * sumD ts + ts.length + 1

/-! ### Inline sub-scanners (modelled from the spec)

Modelled from the spec: code spans match by longest equal-length
backtick run with literal fallback; autolinks and raw inline HTML are
recognized after a `<`; a closing bracket attempts inline-destination
resolution (reference and shortcut labels have nothing to resolve
against, the spec's block phase collecting no definitions) and falls
back to literal bracket text. -/

/-- Find the next run of exactly `n` backticks; returns the content
before it and the rest after it.  Runs of a different length are
content.  The fuel is the input length plus one, which suffices because
every step consumes at least one byte. -/
def findRun (n : Nat) : Nat → List Nat → Option (List Nat × List Nat)
  | 0, _ => none
  | _ + 1, [] => none
  | fuel + 1, b :: r =>
      if b == 96 then
        let k := runLen 96 (b :: r)
        if k == n then some ([], (b :: r).drop k)
        else
          match findRun n fuel ((b :: r).drop k) with
          | some (c, rest) => some (List.replicate k 96 ++ c, rest)
          | none => none
      else
        match findRun n fuel r with
        | some (c, rest) => some (b :: c, rest)
        | none => none

/-- Code-span content normalization: newlines become spaces; one space
is stripped from each end when the content starts and ends with a space
but is not all spaces. -/
def codeNorm (s : List Nat) : List Nat :=
  let t := s.map (fun b => if b == 10 then 32 else b)
  if t.head? == some 32 && t.getLast? == some 32 && t.any (fun b => b != 32) then
    (t.drop 1).dropLast
  else t

/-- Scan forward through the first occurrence of `pat`; returns the
consumed bytes (pattern included) and the rest. -/
def scanThrough (pat : List Nat) : List Nat → Option (List Nat × List Nat)
  | [] => none
  | b :: r =>
      if pat.isPrefixOf (b :: r) then some (pat, (b :: r).drop pat.length)
      else
        match scanThrough pat r with
        | some (c, rest) => some (b :: c, rest)
        | none => none

def containsAux (p : List Nat) : List Nat → Bool
  | [] => p.isEmpty
  | b :: r => p.isPrefixOf (b :: r) || containsAux p r

/-- Case-insensitive substring test (the pattern is given lowercase). -/
def containsPat (p l : List Nat) : Bool := containsAux p (l.map lower)

/-- Body of a `<...>` autolink candidate: bytes up to `>`, failing on
whitespace, control bytes or `<`. -/
def uriBody : List Nat → Option (List Nat × List Nat)
  | [] => none
  | b :: r =>
      if b == 62 then some ([], r)
      else if b ≤ 32 || b == 60 then none
      else
        match uriBody r with
        | some (c, rest) => some (b :: c, rest)
        | none => none

def isSchemeB (b : Nat) : Bool := isAlphaB b || isDigitB b || b == 43 || b == 45 || b == 46

/-- Split a URI body at the first `:` provided everything before it is
scheme material. -/
def schemeSplit : List Nat → Option (List Nat × List Nat)
  | [] => none
  | b :: r =>
      if b == 58 then some ([], r)
      else if isSchemeB b then
        match schemeSplit r with
        | some (s, rest) => some (b :: s, rest)
        | none => none
      else none

def isAtextB (b : Nat) : Bool :=
  isAlphaB b || isDigitB b ||
    [33, 35, 36, 37, 38, 39, 42, 43, 45, 46, 47, 61, 63, 94, 95, 96, 123, 124, 125, 126].contains b

/-- Simplified email-autolink shape: atext local part, one `@`, a
letter/digit/`-`/`.` domain. -/
def emailOK (body : List Nat) : Bool :=
  let loc := body.takeWhile (fun b => b != 64)
  match body.drop loc.length with
  | 64 :: dom =>
      !loc.isEmpty && loc.all isAtextB && !dom.isEmpty &&
        dom.all (fun b => isAlphaB b || isDigitB b || b == 45 || b == 46)
  | _ => false

def schemeOK (sch : List Nat) : Bool :=
  2 ≤ sch.length && sch.length ≤ 32 &&
    (match sch with | b :: _ => isAlphaB b | [] => false)

/-- Autolink recognition after a `<`: a URI with a valid scheme, or an
email address rendered as a `mailto:` link. -/
def autolinkScan (r : List Nat) : Option (Inline × List Nat) :=
  match uriBody r with
  | none => none
  | some (body, rest) =>
      match schemeSplit body with
      | some (sch, _) =>
          if schemeOK sch then some (.link body [] [.text body], rest)
          else if emailOK body then
            some (.link (strB "mailto:" ++ body) [] [.text body], rest)
          else none
      | none =>
          if emailOK body then
            some (.link (strB "mailto:" ++ body) [] [.text body], rest)
          else none

/-- An HTML tag name: a letter then letters, digits or `-`. -/
def tagNameScan : List Nat → Option (List Nat × List Nat)
  | [] => none
  | b :: r =>
      if isAlphaB b then
        let nm := (b :: r).takeWhile (fun c => isAlphaB c || isDigitB c || c == 45)
        some (nm, (b :: r).drop nm.length)
      else none

/-- Scan to the `>` closing a tag, skipping quoted attribute values;
a stray `<` aborts.  Fueled by the input length plus one. -/
def tagTail : Nat → List Nat → Option (List Nat × List Nat)
  | 0, _ => none
  | _ + 1, [] => none
  | fuel + 1, b :: r =>
      if b == 62 then some ([62], r)
      else if b == 60 then none
      else if b == 34 || b == 39 then
        match scanThrough [b] r with
        | some (c, rest) =>
            match tagTail fuel rest with
            | some (c2, rest2) => some (b :: (c ++ c2), rest2)
            | none => none
        | none => none
      else
        match tagTail fuel r with
        | some (c2, rest2) => some (b :: c2, rest2)
        | none => none

/-- Name-and-tail scan shared by open and closing tags. -/
def htmlTagCore (rr : List Nat) : Option (List Nat × List Nat) :=
  match tagNameScan rr with
  | some (nm, r3) =>
      match tagTail (r3.length + 1) r3 with
      | some (c, rest) => some (nm ++ c, rest)
      | none => none
  | none => none

/-- An open or closing HTML tag after the initial `<`; returns the
consumed bytes (without the `<`) and the rest. -/
def htmlTagScan (r : List Nat) : Option (List Nat × List Nat) :=
  match r with
  | b :: r2 =>
      if b == 47 then (htmlTagCore r2).map (fun p => (47 :: p.1, p.2))
      else htmlTagCore r
  | [] => none

/-- HTML comments, processing instructions, declarations and CDATA
sections after the initial `<`. -/
def htmlMiscScan (r : List Nat) : Option (List Nat × List Nat) :=
  if [33, 45, 45].isPrefixOf r then
    match scanThrough [45, 45, 62] (r.drop 3) with
    | some (c, rest) => some ([33, 45, 45] ++ c, rest)
    | none => none
  else if [33, 91, 67, 68, 65, 84, 65, 91].isPrefixOf r then
    match scanThrough [93, 93, 62] (r.drop 8) with
    | some (c, rest) => some ([33, 91, 67, 68, 65, 84, 65, 91] ++ c, rest)
    | none => none
  else if [63].isPrefixOf r then
    (scanThrough [63, 62] (r.drop 1)).map (fun p => (63 :: p.1, p.2))
  else if [33].isPrefixOf r &&
      (match r.drop 1 with | b :: _ => isAlphaB b | [] => false) then
    (scanThrough [62] (r.drop 1)).map (fun p => (33 :: p.1, p.2))
  else none

/-- Raw inline HTML after a `<`: a comment/PI/declaration/CDATA or an
open/closing tag. -/
def htmlInlineScan (r : List Nat) : Option (List Nat × List Nat) :=
  match htmlMiscScan r with
  | some p => some p
  | none => htmlTagScan r

def skipWs : List Nat → List Nat
  | b :: r => if isWsB b then skipWs r else b :: r
  | [] => []

/-- Bare link destination: bytes up to whitespace or the unbalanced
closing paren, tracking paren depth. -/
def bareDest : Nat → List Nat → List Nat × List Nat
  | _, [] => ([], [])
  | depth, b :: r =>
      if b ≤ 32 then ([], b :: r)
      else if b == 40 then
        let p := bareDest (depth + 1) r
        (40 :: p.1, p.2)
      else if b == 41 then
        if depth == 0 then ([], 41 :: r)
        else
          let p := bareDest (depth - 1) r
          (41 :: p.1, p.2)
      else
        let p := bareDest depth r
        (b :: p.1, p.2)

/-- Angle-bracketed link destination after the `<`. -/
def angleDest : List Nat → Option (List Nat × List Nat)
  | [] => none
  | b :: r =>
      if b == 62 then some ([], r)
      else if b == 60 || b == 10 then none
      else
        match angleDest r with
        | some (c, rest) => some (b :: c, rest)
        | none => none

def destScan (r : List Nat) : Option (List Nat × List Nat) :=
  match r with
  | b :: rr => if b == 60 then angleDest rr else some (bareDest 0 (b :: rr))
  | [] => some (bareDest 0 [])

/-- A link title in double quotes, single quotes or parens; returns the
content without the closing delimiter. -/
def titleScan : List Nat → Option (List Nat × List Nat)
  | [] => none
  | b :: r =>
      if b == 34 || b == 39 then
        match scanThrough [b] r with
        | some (c, rest) => some (c.dropLast, rest)
        | none => none
      else if b == 40 then
        match scanThrough [41] r with
        | some (c, rest) => some (c.dropLast, rest)
        | none => none
      else none

/-- The closing paren of an inline link suffix. -/
def parenAfter (dest title l : List Nat) : Option (List Nat × List Nat × List Nat) :=
  match l with
  | b :: r => if b == 41 then some (dest, title, r) else none
  | [] => none

/-- Inline link/image suffix after the closing `]`: `(dest)` or
`(dest "title")`.  Returns destination, title and the rest. -/
def linkSuffix (r : List Nat) : Option (List Nat × List Nat × List Nat) :=
  match r with
  | b :: r2 =>
      if b == 40 then
        match destScan (skipWs r2) with
        | none => none
        | some (dest, r4) =>
            let r5 := skipWs r4
            match titleScan r5 with
            | some (title, r6) => parenAfter dest title (skipWs r6)
            | none => parenAfter dest [] r5
      else none
  | [] => none

/-! ### The inline scanner (modelled from the spec) -/

/-- Scanner state: the remaining bytes, the emitted items (reversed),
the pending literal bytes (reversed) and the previously consumed byte
(for the flanking classes). -/
structure SScan where
  rest : List Nat
  items : List IItem
  txt : List Nat
  lastB : Option Nat

def flushT (items : List IItem) (txt : List Nat) : List IItem :=
  if txt.isEmpty then items else .text txt.reverse :: items

/-- Count and remove the leading spaces of the reversed pending text
(the trailing spaces of the emitted text). -/
def dropSp : List Nat → Nat × List Nat
  | 32 :: r =>
      let p := dropSp r
      (p.1 + 1, p.2)
  | l => (0, l)

/-- Scan the reversed item list for the nearest active opening bracket;
returns the items above it, its image flag and the items below it. -/
def splitBracket : List IItem → Option (List IItem × Bool × List IItem)
  | [] => none
  | .obracket img true :: rest => some ([], img, rest)
  | it :: rest =>
      (splitBracket rest).map (fun p => (it :: p.1, p.2.1, p.2.2))

/-- Failed bracket resolution pops its opener: the nearest active
opening bracket is deactivated (it will render as literal text). -/
def popBracket : List IItem → List IItem
  | [] => []
  | .obracket img true :: rest => .obracket img false :: rest
  | it :: rest => it :: popBracket rest

/-- After a link is made, earlier link openers are deactivated: links
may not contain links. -/
def deactivate : List IItem → List IItem
  | [] => []
  | .obracket false _ :: r => .obracket false false :: deactivate r
  | it :: r => it :: deactivate r

inductive StepRes where
  | done (items : List IItem)
  | next (s : SScan)
  | fail

/-- Resolve a closing bracket against its opener: an inline destination
must follow; emphasis inside the brackets is resolved by the delimiter
pass; after a link, earlier link openers are deactivated.  `fb` is the
literal-text fallback when resolution fails. -/
def brResolve (above : List IItem) (img : Bool) (below : List IItem) (r : List Nat)
    (fb : StepRes) : StepRes :=
  match linkSuffix r with
  | some (dest, title, rest2) =>
      match procEmph (pFuel above.reverse) [] above.reverse with
      | some children =>
          .next ⟨rest2,
            .node (if img then .image dest title children else .link dest title children) ::
              (if img then below else deactivate below), [], some 41⟩
      | none => .fail
  | none => fb

/-- One step of the inline scanner: emphasis delimiter runs with their
flanking classes, backtick code spans with longest-equal-run matching
and literal fallback, bracket push, bracket close with
inline-destination resolution and literal fallback (the spec's block
phase collects no reference definitions, so reference and shortcut
lookups have nothing to resolve against), autolinks, raw inline HTML,
and soft/hard line breaks. -/
def scanStep (s : SScan) : StepRes :=
  match s.rest with
  | [] => .done ((flushT s.items (dropSp s.txt).2).reverse)
  | b :: r =>
      if b == 42 || b == 95 then
        let n := runLen b (b :: r)
        let after := (b :: r).drop n
        let nb := after.head?
        let d := IItem.delim b n (canOpenD b s.lastB nb) (canCloseD b s.lastB nb)
        .next ⟨after, d :: flushT s.items s.txt, [], some b⟩
      else if b == 96 then
        let n := runLen 96 (b :: r)
        let after := (b :: r).drop n
        match findRun n (after.length + 1) after with
        | some (content, rest2) =>
            .next ⟨rest2, .node (.code (codeNorm content)) :: flushT s.items s.txt, [], some 96⟩
        | none => .next ⟨after, s.items, List.replicate n 96 ++ s.txt, some 96⟩
      else if b == 91 then
        .next ⟨r, .obracket false true :: flushT s.items s.txt, [], some 91⟩
      else if b == 33 && r.head? == some 91 then
        .next ⟨r.tail, .obracket true true :: flushT s.items s.txt, [], some 91⟩
      else if b == 93 then
        let items1 := flushT s.items s.txt
        match splitBracket items1 with
        | none => .next ⟨r, s.items, 93 :: s.txt, some 93⟩
        | some (above, img, below) =>
            brResolve above img below r (.next ⟨r, popBracket items1, [93], some 93⟩)
      else if b == 60 then
        match autolinkScan r with
        | some (nd, rest2) => .next ⟨rest2, .node nd :: flushT s.items s.txt, [], some 62⟩
        | none =>
            match htmlInlineScan r with
            | some (consumed, rest2) =>
                .next ⟨rest2, .node (.htmlI (60 :: consumed)) :: flushT s.items s.txt, [], some 62⟩
            | none => .next ⟨r, s.items, 60 :: s.txt, some 60⟩
      else if b == 10 then
        let p := dropSp s.txt
        let brk : IItem := if 2 ≤ p.1 then .hard else .soft
        .next ⟨r, brk :: flushT s.items p.2, [], some 10⟩
      else .next ⟨r, s.items, b :: s.txt, some b⟩

/-- The scanner loop, fueled by the input length plus one; every step
consumes at least one byte (proved below). -/
def scanLoop : Nat → SScan → Option (List IItem)
  | 0, _ => none
  | fuel + 1, s =>
      match scanStep s with
      | .done items => some items
      | .next s2 => scanLoop fuel s2
      | .fail => none

/-- The inline pass over a leaf block's raw text: tokenize with the
scanner, then resolve emphasis over the remaining items with the
delimiter stack. -/
def parseInlines (T : List Nat) : Option (List Inline) :=
  match scanLoop (T.length + 1) ⟨T, [], [], none⟩ with
  | some items => procEmph (pFuel items) [] items
  | none => none

/-! ### Block phase (modelled from the spec)

Modelled from the spec: the block pass processes one logical line at a
time over a stack of open containers — continuation walk outermost to
innermost (blockquote marker, list item indentation, fence content,
indented code), lazy paragraph continuation, new containers and leaves
(ATX and setext headings, fenced and indented code, blockquote and list
markers, thematic breaks, the seven HTML-block start conditions), and
list tightness resolved when the list closes from the blank lines seen
between or within its items. -/

/-- Raw blocks produced by the block pass, before the inline pass runs
over leaf content. -/
inductive RawB where
  | para (ls : List (List Nat))
  | heading (lvl : Nat) (content : List Nat)
  | codeFence (info : List Nat) (ls : List (List Nat))
  | codeInd (ls : List (List Nat))
  | htmlB (ls : List (List Nat))
  | thematic
  | bquote (c : List RawB)
  | item (c : List RawB)
  | list (bullet : Bool) (mch : Nat) (start : Nat) (tight : Bool) (items : List RawB)

/-- End condition of an open HTML block: a set of (lowercase) patterns
whose occurrence on a line closes it, or a blank line. -/
inductive HEnd where
  | pats (ps : List (List Nat))
  | untilBlank

/-- The open leaf of the innermost container: a paragraph, a fenced or
indented code block, or an HTML block (ATX/setext headings and thematic
breaks close immediately).  Line lists are stored reversed. -/
inductive Leaf where
  | para (rl : List (List Nat))
  | codeF (fch flen find : Nat) (info : List Nat) (rl : List (List Nat))
  | codeI (rl : List (List Nat))
  | htmlL (e : HEnd) (rl : List (List Nat))

/-- Open container frames: a blockquote, a list (with its pending and
seen blank-line flags for tightness), or a list item (with its content
indentation).  Children lists are stored reversed. -/
inductive Frame where
  | bq (done : List RawB)
  | listF (bullet : Bool) (mch : Nat) (start : Nat) (pend : Bool) (saw : Bool) (done : List RawB)
  | itemF (indent : Nat) (done : List RawB)

/-- Block-pass state: closed top-level blocks (reversed), the open
container stack (outermost first) and the open leaf. -/
structure BState where
  doc : List RawB
  stack : List Frame
  leaf : Option Leaf

/-! ### Line-shape scanners -/

/-- Drop one optional space after a container marker. -/
def stripOneSp (r : List Nat) : List Nat :=
  match r with
  | b :: r2 => if b == 32 then r2 else b :: r2
  | [] => []

def bqMarker (l : List Nat) : Option (List Nat) :=
  if 3 < countLead l then none
  else
    match stripLead l with
    | b :: r => if b == 62 then some (stripOneSp r) else none
    | [] => none

def digCount : List Nat → Nat
  | b :: r => if 48 ≤ b && b ≤ 57 then digCount r + 1 else 0
  | [] => 0

def digVal : List Nat → Nat → Nat
  | b :: r, acc => if 48 ≤ b && b ≤ 57 then digVal r (acc * 10 + (b - 48)) else acc
  | [], acc => acc

/-- Spaces after a list marker fix the item's content column: 1–4
spaces count, five or more (or an empty rest) count as one. -/
def markerTail (lead mlen : Nat) (after : List Nat) : Option (Nat × List Nat) :=
  if after.isEmpty then some (lead + mlen + 1, [])
  else
    let s := countLead after
    if s == 0 then none
    else if s ≤ 4 then some (lead + mlen + s, after.drop s)
    else some (lead + mlen + 1, after.drop 1)

/-- A bullet (`-`, `+`, `*`) or ordered (1–9 digits then `.` or `)`)
list marker: kind, marker byte, start number, content indent, rest. -/
def listMarker (l : List Nat) : Option (Bool × Nat × Nat × Nat × List Nat) :=
  if 3 < countLead l then none
  else
    let lead := countLead l
    let l2 := stripLead l
    match l2 with
    | b :: r =>
        if b == 45 || b == 43 || b == 42 then
          (markerTail lead 1 r).map (fun p => (true, b, 0, p.1, p.2))
        else
          let dc := digCount l2
          if 1 ≤ dc && dc ≤ 9 then
            match l2.drop dc with
            | d :: r2 =>
                if d == 46 || d == 41 then
                  (markerTail lead (dc + 1) r2).map (fun p => (false, d, digVal l2 0, p.1, p.2))
                else none
            | [] => none
          else none
    | [] => none

def themChars : List Nat → Nat → Nat → Bool
  | [], _, cnt => 3 ≤ cnt
  | b :: r, ch, cnt =>
      if b == ch then themChars r ch (cnt + 1)
      else if b == 32 || b == 9 then themChars r ch cnt
      else false

/-- A thematic break: three or more `*`, `-` or `_` of one kind,
optionally space-separated, nothing else. -/
def thematicLine (l : List Nat) : Bool :=
  if 3 < countLead l then false
  else
    match stripLead l with
    | b :: r => (b == 42 || b == 45 || b == 95) && themChars r b 1
    | [] => false

/-- Strip an ATX heading's trailing `#` run (when preceded by a space
or alone) and surrounding spaces. -/
def atxStrip (c : List Nat) : List Nat :=
  let c1 := rtrimSp c
  let rev := c1.reverse
  let hs := rev.takeWhile (fun b => b == 35)
  if hs.isEmpty then c1
  else
    match rev.drop hs.length with
    | [] => []
    | 32 :: rest2 => rtrimSp (32 :: rest2).reverse
    | _ => c1

/-- An ATX heading: up to 3 leading spaces, one to six `#`, then a
space, tab or end of line; yields level and cleaned content. -/
def atxParse (l : List Nat) : Option (Nat × List Nat) :=
  if 3 < countLead l then none
  else
    let l2 := stripLead l
    let n := runLen 35 l2
    if 1 ≤ n && n ≤ 6 then
      match l2.drop n with
      | [] => some (n, [])
      | 32 :: r => some (n, atxStrip (stripLead r))
      | 9 :: r => some (n, atxStrip r)
      | _ => none
    else none

/-- A setext underline: a run of `=` (level 1) or `-` (level 2) with
only trailing whitespace. -/
def setextLine (l : List Nat) : Option Nat :=
  if 3 < countLead l then none
  else
    match stripLead l with
    | 61 :: r =>
        if (r.dropWhile (fun b => b == 61)).all (fun b => b == 32 || b == 9) then some 1
        else none
    | 45 :: r =>
        if (r.dropWhile (fun b => b == 45)).all (fun b => b == 32 || b == 9) then some 2
        else none
    | _ => none

/-- An opening code fence: three or more backticks or tildes after up
to 3 spaces of indentation; backtick-fence info strings may not contain
backticks.  Yields fence byte, length, indentation and info string. -/
def fenceOpen (l : List Nat) : Option (Nat × Nat × Nat × List Nat) :=
  let ind := countLead l
  if 3 < ind then none
  else
    match stripLead l with
    | b :: r =>
        if b == 96 || b == 126 then
          let n := runLen b (b :: r)
          if 3 ≤ n then
            let info := rtrimSp (stripLead ((b :: r).drop n))
            if b == 96 && info.contains 96 then none else some (b, n, ind, info)
          else none
        else none
    | [] => none

/-- A closing code fence: a run of the fence byte at least as long as
the opener, then only whitespace. -/
def fenceClose (ch len : Nat) (l : List Nat) : Bool :=
  if 3 < countLead l then false
  else
    let l2 := stripLead l
    let n := runLen ch l2
    len ≤ n && (l2.drop n).all (fun b => b == 32 || b == 9)

def afterTagOK : List Nat → Bool
  | [] => true
  | b :: _ => b == 32 || b == 9 || b == 62

def cond1Tag (low tag : List Nat) : Bool :=
  tag.isPrefixOf low && afterTagOK (low.drop tag.length)

/-- HTML-block start condition 1: script, pre, style, textarea. -/
def cond1 (low : List Nat) : Bool :=
  cond1Tag low (strB "<script") || cond1Tag low (strB "<pre") ||
    cond1Tag low (strB "<style") || cond1Tag low (strB "<textarea")

/-- Tag names of HTML-block start condition 6. -/
def blockTags : List (List Nat) :=
  [strB "address", strB "article", strB "aside", strB "base", strB "basefont",
   strB "blockquote", strB "body", strB "caption", strB "center", strB "col",
   strB "colgroup", strB "dd", strB "details", strB "dialog", strB "dir",
   strB "div", strB "dl", strB "dt", strB "fieldset", strB "figcaption",
   strB "figure", strB "footer", strB "form", strB "frame", strB "frameset",
   strB "h1", strB "h2", strB "h3", strB "h4", strB "h5", strB "h6",
   strB "head", strB "header", strB "hr", strB "html", strB "iframe",
   strB "legend", strB "li", strB "link", strB "main", strB "menu",
   strB "menuitem", strB "nav", strB "noframes", strB "ol", strB "optgroup",
   strB "option", strB "p", strB "param", strB "section", strB "summary",
   strB "table", strB "tbody", strB "td", strB "tfoot", strB "th",
   strB "thead", strB "title", strB "tr", strB "track", strB "ul"]

/-- HTML-block start condition 6: `<` or `</` then a known block-level
tag name followed by whitespace, `>`, `/>` or the end of the line. -/
def cond6 (low : List Nat) : Bool :=
  match low with
  | 60 :: rest =>
      let rest2 := match rest with | 47 :: rr => rr | _ => rest
      blockTags.any (fun t =>
        t.isPrefixOf rest2 &&
          (match rest2.drop t.length with
           | [] => true
           | 62 :: _ => true
           | 47 :: 62 :: _ => true
           | b :: _ => b == 32 || b == 9))
  | _ => false

/-- HTML-block start condition 7: a complete open or closing tag alone
on the line (may not interrupt a paragraph). -/
def cond7 (r : List Nat) : Bool :=
  match htmlTagScan r with
  | some (_, rest) => isBlankL rest
  | none => false

/-- The seven HTML-block start conditions on a line (after up to 3
spaces of indentation); yields the end condition of the opened block. -/
def htmlStart (l : List Nat) (inPara : Bool) : Option HEnd :=
  if 3 < countLead l then none
  else
    match stripLead l with
    | 60 :: r =>
        let low := (60 :: r).map lower
        if [33, 45, 45].isPrefixOf r then some (.pats [[45, 45, 62]])
        else if [63].isPrefixOf r then some (.pats [[63, 62]])
        else if [33, 91, 67, 68, 65, 84, 65, 91].isPrefixOf r then some (.pats [[93, 93, 62]])
        else if (match r with | 33 :: b2 :: _ => isAlphaB b2 | _ => false) then
          some (.pats [[62]])
        else if cond1 low then
          some (.pats [strB "</script>", strB "</pre>", strB "</style>", strB "</textarea>"])
        else if cond6 low then some .untilBlank
        else if !inPara && cond7 r then some .untilBlank
        else none
    | _ => none

/-! ### Container-stack operations -/

def frameAdd (f : Frame) (bs : List RawB) : Frame :=
  match f with
  | .bq done => .bq (bs.reverse ++ done)
  | .listF b m s p w done => .listF b m s p w (bs.reverse ++ done)
  | .itemF ind done => .itemF ind (bs.reverse ++ done)

/-- Close a frame around its children plus trailing blocks `extra`;
a list resolves its tightness from its seen-blank flag. -/
def closeFrame (f : Frame) (extra : List RawB) : RawB :=
  match f with
  | .bq done => .bquote (done.reverse ++ extra)
  | .listF b m s _ saw done => .list b m s (!saw) (done.reverse ++ extra)
  | .itemF _ done => .item (done.reverse ++ extra)

/-- Close a chain of frames given innermost-first, the innermost taking
`extra` as trailing children; returns the blocks for the surviving
parent. -/
def closeRev : List Frame → List RawB → List RawB
  | [], extra => extra
  | f :: outer, extra => closeRev outer [closeFrame f extra]

def pushFrames : List Frame → List RawB → List Frame
  | [], _ => []
  | [f], bs => [frameAdd f bs]
  | f :: rest, bs => f :: pushFrames rest bs

/-- Add closed blocks to the innermost open container (or the document
when the stack is empty). -/
def pushB (st : BState) (bs : List RawB) : BState :=
  if st.stack.isEmpty then { st with doc := bs.reverse ++ st.doc }
  else { st with stack := pushFrames st.stack bs }

def splitLastF : List Frame → Option (List Frame × Frame)
  | [] => none
  | [f] => some ([], f)
  | f :: rest => (splitLastF rest).map (fun p => (f :: p.1, p.2))

def dropBlanks : List (List Nat) → List (List Nat)
  | [] => []
  | l :: r => if isBlankL l then dropBlanks r else l :: r

/-- Close an open leaf into a raw block; indented code drops its
trailing blank lines. -/
def leafRaw : Leaf → RawB
  | .para rl => .para rl.reverse
  | .codeF _ _ _ info rl => .codeFence info rl.reverse
  | .codeI rl => .codeInd (dropBlanks rl).reverse
  | .htmlL _ rl => .htmlB rl.reverse

/-- Close the leaf and every frame from stack position `k` on, adding
the resulting block to the surviving innermost container. -/
def closeFromK (st : BState) (k : Nat) : BState :=
  let leafBs : List RawB := match st.leaf with | none => [] | some lf => [leafRaw lf]
  let bs := closeRev (st.stack.drop k).reverse leafBs
  pushB { st with stack := st.stack.take k, leaf := none } bs

def closeLeafSt (st : BState) : BState := closeFromK st st.stack.length

/-- Close innermost list frames until the innermost open container can
take non-item content (lists may only contain items). -/
def closeListsN : Nat → BState → BState
  | 0, st => st
  | n + 1, st =>
      match splitLastF st.stack with
      | some (outer, .listF b m s p w done) =>
          closeListsN n (pushB { st with stack := outer } [closeFrame (.listF b m s p w done) []])
      | _ => st

def closeInnerLists (st : BState) : BState := closeListsN st.stack.length st

def isParaOpen (st : BState) : Bool :=
  match st.leaf with | some (.para _) => true | _ => false

/-- Record a pending blank line on every open list (for tightness). -/
def markPend (fs : List Frame) : List Frame :=
  fs.map (fun f => match f with
    | .listF b m s _ w done => .listF b m s true w done
    | g => g)

/-- A blank line at the start of an empty item does not count towards
looseness. -/
def emptyItemOpen (st : BState) : Bool :=
  match splitLastF st.stack, st.leaf with
  | some (_, .itemF _ []), none => true
  | _, _ => false

/-- A pending blank line followed by more content inside the list makes
it loose; resolved at the end of every nonblank line. -/
def promote (st : BState) : BState :=
  { st with stack := st.stack.map (fun f => match f with
      | .listF b m s true _ done => .listF b m s false true done
      | g => g) }

/-- A blank line: closes a paragraph, is content for code blocks,
closes an until-blank HTML block, and marks open lists. -/
def blankLine (st : BState) (rest : List Nat) : BState :=
  let st2 :=
    match st.leaf with
    | some (.para _) => closeLeafSt st
    | some (.codeF fch flen find info rl) =>
        { st with leaf := some (.codeF fch flen find info (stripUpTo find rest :: rl)) }
    | some (.codeI rl) => { st with leaf := some (.codeI (stripUpTo 4 rest :: rl)) }
    | some (.htmlL .untilBlank _) => closeLeafSt st
    | some (.htmlL (.pats ps) rl) => { st with leaf := some (.htmlL (.pats ps) (rest :: rl)) }
    | none => st
  if emptyItemOpen st2 then st2 else { st2 with stack := markPend st2.stack }

/-! ### The per-line state machine -/

/-- Phase 1 continuation walk (outermost to innermost): blockquotes
need their marker, items need their indentation or a blank line, lists
always continue.  Returns how many frames matched and the line rest at
the first failure (or after all markers). -/
def contWalk : List Frame → List Nat → Nat × List Nat
  | [], l => (0, l)
  | .bq _ :: rest, l =>
      match bqMarker l with
      | some l2 =>
          let p := contWalk rest l2
          (p.1 + 1, p.2)
      | none => (0, l)
  | .listF _ _ _ _ _ _ :: rest, l =>
      let p := contWalk rest l
      (p.1 + 1, p.2)
  | .itemF ind _ :: rest, l =>
      if isBlankL l then
        let p := contWalk rest l
        (p.1 + 1, p.2)
      else if ind ≤ countLead l then
        let p := contWalk rest (l.drop ind)
        (p.1 + 1, p.2)
      else (0, l)

/-- Would this line open block structure?  Used to rule out lazy
paragraph continuation. -/
def startsConstruct (l : List Nat) : Bool :=
  (bqMarker l).isSome || (listMarker l).isSome || thematicLine l ||
    (atxParse l).isSome || (fenceOpen l).isSome || (htmlStart l true).isSome

inductive OpenRes where
  | stop (st : BState) (rest : List Nat)
  | step (st : BState) (rest : List Nat)

/-- Try to open one new container at the current position: a blockquote
marker, or a list item marker (a compatible marker continues the open
list, otherwise a new list opens; thematic-break lines and paragraph
interruption restrictions stop the attempt). -/
def openStep (st : BState) (rest : List Nat) : OpenRes :=
  if thematicLine rest then .stop st rest
  else
    match bqMarker rest with
    | some rest2 =>
        let st2 := closeInnerLists (closeLeafSt st)
        .step { st2 with stack := st2.stack ++ [.bq []] } rest2
    | none =>
        match listMarker rest with
        | some (bullet, mch, start, width, rest2) =>
            if isParaOpen st && (!(bullet || start == 1) || isBlankL rest2) then .stop st rest
            else
              let st2 := closeLeafSt st
              match splitLastF st2.stack with
              | some (_, .listF b m _ _ _ _) =>
                  if b == bullet && m == mch then
                    .step { st2 with stack := st2.stack ++ [.itemF width []] } rest2
                  else
                    let st3 := closeInnerLists st2
                    .step { st3 with stack :=
                      st3.stack ++ [.listF bullet mch start false false [], .itemF width []] } rest2
              | _ =>
                  let st3 := closeInnerLists st2
                  .step { st3 with stack :=
                    st3.stack ++ [.listF bullet mch start false false [], .itemF width []] } rest2
        | none => .stop st rest

/-- Open new containers until no marker matches; fueled by the line
length plus one, sufficient because every opened marker consumes at
least one byte (proved below). -/
def openConts : Nat → BState → List Nat → Option (BState × List Nat)
  | 0, _, _ => none
  | fuel + 1, st, rest =>
      match openStep st rest with
      | .stop st2 rest2 => some (st2, rest2)
      | .step st2 rest2 => openConts fuel st2 rest2

/-- Phase 2 leaf stage on the remaining content: thematic break, ATX
heading, fenced code, HTML block, indented code, else paragraph text. -/
def leafStage (st : BState) (rest : List Nat) : BState :=
  if thematicLine rest then pushB (closeInnerLists (closeLeafSt st)) [.thematic]
  else
    match atxParse rest with
    | some (lvl, content) => pushB (closeInnerLists (closeLeafSt st)) [.heading lvl content]
    | none =>
        match fenceOpen rest with
        | some (fch, flen, find, info) =>
            { closeInnerLists (closeLeafSt st) with leaf := some (.codeF fch flen find info []) }
        | none =>
            match htmlStart rest (isParaOpen st) with
            | some e =>
                let st2 := { closeInnerLists (closeLeafSt st) with
                  leaf := some (.htmlL e [rest]) }
                match e with
                | .pats ps =>
                    if ps.any (fun p => containsPat p rest) then closeLeafSt st2 else st2
                | .untilBlank => st2
            | none =>
                if 4 ≤ countLead rest && !isParaOpen st then
                  { closeInnerLists st with leaf := some (.codeI [rest.drop 4]) }
                else
                  match st.leaf with
                  | some (.para rl) => { st with leaf := some (.para (stripLead rest :: rl)) }
                  | _ =>
                      { closeInnerLists (closeLeafSt st) with
                        leaf := some (.para [stripLead rest]) }

/-- New containers and leaf content for a line whose containers all
continued (a setext underline converts the open paragraph first). -/
def openStage (st : BState) (rest : List Nat) : Option BState :=
  match st.leaf, setextLine rest with
  | some (.para rl), some lvl =>
      some (pushB { st with leaf := none } [.heading lvl (joinNl rl.reverse)])
  | _, _ =>
      match openConts (rest.length + 1) st rest with
      | none => none
      | some (st2, rest2) =>
          some (if isBlankL rest2 then blankLine st2 rest2 else leafStage st2 rest2)

/-- Content handling after the continuation walk: blank lines, open
fenced/indented code and HTML leaves capture raw lines; otherwise the
container/leaf opening stage runs. -/
def lineRest (st : BState) (rest : List Nat) : Option BState :=
  if isBlankL rest then some (blankLine st rest)
  else
    match st.leaf with
    | some (.codeF fch flen find info rl) =>
        if fenceClose fch flen rest then some (closeLeafSt st)
        else some { st with leaf := some (.codeF fch flen find info (stripUpTo find rest :: rl)) }
    | some (.codeI rl) =>
        if 4 ≤ countLead rest then
          some { st with leaf := some (.codeI (rest.drop 4 :: rl)) }
        else openStage (closeLeafSt st) rest
    | some (.htmlL e rl) =>
        let st2 := { st with leaf := some (.htmlL e (rest :: rl)) }
        match e with
        | .pats ps => if ps.any (fun p => containsPat p rest) then some (closeLeafSt st2) else some st2
        | .untilBlank => some st2
    | _ => openStage st rest

/-- One line of the block phase: continuation walk, then lazy
paragraph continuation or closing of unmatched containers, then the
content stage; nonblank lines resolve pending blank flags. -/
def procLine (st0 : BState) (l : List Nat) : Option BState :=
  let w := contWalk st0.stack l
  let res :=
    if w.1 == st0.stack.length then lineRest st0 w.2
    else if isParaOpen st0 && !isBlankL w.2 && !startsConstruct w.2 then
      some (match st0.leaf with
        | some (.para rl) => { st0 with leaf := some (.para (stripLead w.2 :: rl)) }
        | _ => st0)
    else lineRest (closeFromK st0 w.1) w.2
  res.map (fun st => if isBlankL l then st else promote st)

def feedLs : List (List Nat) → BState → Option BState
  | [], st => some st
  | l :: r, st =>
      match procLine st l with
      | some st2 => feedLs r st2
      | none => none

/-- The whole block phase over the finished lines. -/
def blockPhase (ls : List (List Nat)) : Option (List RawB) :=
  (feedLs ls ⟨[], [], none⟩).map (fun st => (closeFromK st 0).doc.reverse)

/-! ### Tree assembly: the inline pass over the raw tree -/

def paraText (ls : List (List Nat)) : List Nat := joinNl ls

def codeText (ls : List (List Nat)) : List Nat := (ls.map (fun l => l ++ [10])).flatten

mutual

/-- Run the inline pass over one raw block's leaf content. -/
def rawToBlock : RawB → Option Block
  | .para ls => (parseInlines (paraText ls)).map .paragraph
  | .heading lvl c => (parseInlines c).map (.heading lvl)
  | .codeFence info ls => some (.codeBlock info (codeText ls))
  | .codeInd ls => some (.codeBlock [] (codeText ls))
  | .htmlB ls => some (.htmlBlock (codeText ls))
  | .thematic => some .thematicBreak
  | .bquote cs => (rawsToBlocks cs).map .blockQuote
  | .item cs => (rawsToBlocks cs).map .item
  | .list b m s t is => (rawsToBlocks is).map (.list b m s t)

def rawsToBlocks : List RawB → Option (List Block)
  | [] => some []
  | r :: rest =>
      match rawToBlock r, rawsToBlocks rest with
      | some b, some bs => some (b :: bs)
      | _, _ => none

end


/-- `Parser.Tree` from `cmark.go`: finish the stream, run the block
phase and the inline pass, and return the root document.  The `Option`
carries the fuel of the scanning passes; the totality theorem shows the
result is always `some`. -/
def Parser.Tree (p : PState) : Option Doc :=
  (blockPhase (finishLines p)).bind rawsToBlocks

/-- Whole-input parse: feed everything as one chunk and finish. -/
def parse (x : List Nat) : Option Doc := Parser.Tree (feedBytes newParser x)

/-! ### Renderers (modelled from the spec)

Modelled from the spec: each renderer is a pure function of the tree.
The HTML renderer escapes contextually (body and attribute positions),
honors safe mode (raw HTML suppressed, unsafe URL schemes blanked) and
the break options, and renders tight list items without paragraph
markup; the XML renderer is a structural dump; the CommonMark renderer
re-serializes the tree into markup with backslash-escaped
metacharacters. -/

/-- Renderer-relevant construction options from the spec: render soft
breaks as hard breaks, suppress breaks, safe mode. -/
structure ROpts where
  hardBreaks : Bool
  noBreaks : Bool
  safe : Bool

/-- HTML body-position escaping. -/
def escBodyB (b : Nat) : List Nat :=
  if b == 38 then strB "&amp;"
  else if b == 60 then strB "&lt;"
  else if b == 62 then strB "&gt;"
  else [b]

/-- HTML attribute-position escaping also escapes double quotes. -/
def escAttrB (b : Nat) : List Nat := if b == 34 then strB "&quot;" else escBodyB b

def escapeBody (s : List Nat) : List Nat := (s.map escBodyB).flatten

def escapeAttr (s : List Nat) : List Nat := (s.map escAttrB).flatten

/-- Disallowed URL schemes blanked under safe mode. -/
def unsafeURL (u : List Nat) : Bool :=
  let lu := u.map lower
  (strB "javascript:").isPrefixOf lu || (strB "vbscript:").isPrefixOf lu ||
    (strB "file:").isPrefixOf lu ||
    ((strB "data:").isPrefixOf lu &&
      !((strB "data:image/png").isPrefixOf lu || (strB "data:image/gif").isPrefixOf lu ||
        (strB "data:image/jpeg").isPrefixOf lu || (strB "data:image/webp").isPrefixOf lu))

def natDec (n : Nat) : List Nat := (Nat.toDigits 10 n).map Char.toNat

/-- Plain-text rendering of inline content (image alt text). -/
def plainInls : List Inline → List Nat
  | [] => []
  | .text s :: r => s ++ plainInls r
  | .soft :: r => 32 :: plainInls r
  | .hard :: r => 32 :: plainInls r
  | .code s :: r => s ++ plainInls r
  | .htmlI _ :: r => plainInls r
  | .emph c :: r => plainInls c ++ plainInls r
  | .strong c :: r => plainInls c ++ plainInls r
  | .link _ _ c :: r => plainInls c ++ plainInls r
  | .image _ _ c :: r => plainInls c ++ plainInls r
  | .customI _ _ c :: r => plainInls c ++ plainInls r

/-! ### HTML renderer -/

/-- Inline HTML rendering with contextual escaping, safe-mode raw-HTML
suppression and URL blanking, and break options. -/
def htmlInls (o : ROpts) : List Inline → List Nat
  | [] => []
  | .text s :: r => escapeBody s ++ htmlInls o r
  | .soft :: r =>
      (if o.noBreaks then [32]
       else if o.hardBreaks then strB "<br />\n"
       else [10]) ++ htmlInls o r
  | .hard :: r => (if o.noBreaks then [32] else strB "<br />\n") ++ htmlInls o r
  | .code s :: r => strB "<code>" ++ escapeBody s ++ strB "</code>" ++ htmlInls o r
  | .htmlI s :: r =>
      (if o.safe then strB "<!-- raw HTML omitted -->" else s) ++ htmlInls o r
  | .emph c :: r => strB "<em>" ++ htmlInls o c ++ strB "</em>" ++ htmlInls o r
  | .strong c :: r => strB "<strong>" ++ htmlInls o c ++ strB "</strong>" ++ htmlInls o r
  | .link dest title c :: r =>
      strB "<a href=\"" ++ escapeAttr (if o.safe && unsafeURL dest then [] else dest) ++
        (if title.isEmpty then [] else strB "\" title=\"" ++ escapeAttr title) ++
        strB "\">" ++ htmlInls o c ++ strB "</a>" ++ htmlInls o r
  | .image dest title c :: r =>
      strB "<img src=\"" ++ escapeAttr (if o.safe && unsafeURL dest then [] else dest) ++
        strB "\" alt=\"" ++ escapeAttr (plainInls c) ++
        (if title.isEmpty then [] else strB "\" title=\"" ++ escapeAttr title) ++
        strB "\" />" ++ htmlInls o r
  | .customI onE _ c :: r => onE ++ htmlInls o c ++ htmlInls o r

/-- Block HTML rendering; `tight` suppresses paragraph tags inside
tight list items. -/
def htmlBs (o : ROpts) : Bool → List Block → List Nat
  | _, [] => []
  | true, .paragraph c :: r => htmlInls o c ++ (if r.isEmpty then [] else [10]) ++ htmlBs o true r
  | false, .paragraph c :: r => strB "<p>" ++ htmlInls o c ++ strB "</p>\n" ++ htmlBs o false r
  | tight, .heading n c :: r =>
      strB "<h" ++ natDec n ++ [62] ++ htmlInls o c ++ strB "</h" ++ natDec n ++ strB ">\n" ++
        htmlBs o tight r
  | tight, .codeBlock info lit :: r =>
      let lang := info.takeWhile (fun b => !(b == 32 || b == 9))
      strB "<pre><code" ++
        (if lang.isEmpty then [] else strB " class=\"language-" ++ escapeAttr lang ++ [34]) ++
        [62] ++ escapeBody lit ++ strB "</code></pre>\n" ++ htmlBs o tight r
  | tight, .htmlBlock lit :: r =>
      (if o.safe then strB "<!-- raw HTML omitted -->\n" else lit) ++ htmlBs o tight r
  | tight, .thematicBreak :: r => strB "<hr />\n" ++ htmlBs o tight r
  | tight, .blockQuote c :: r =>
      strB "<blockquote>\n" ++ htmlBs o false c ++ strB "</blockquote>\n" ++ htmlBs o tight r
  | tight, .item c :: r =>
      (if tight then strB "<li>" ++ htmlBs o true c ++ strB "</li>\n"
       else strB "<li>\n" ++ htmlBs o false c ++ strB "</li>\n") ++ htmlBs o tight r
  | tight, .list b _ s t is :: r =>
      (if b then strB "<ul>\n" ++ htmlBs o t is ++ strB "</ul>\n"
       else
         strB "<ol" ++ (if s == 1 then [] else strB " start=\"" ++ natDec s ++ [34]) ++
           strB ">\n" ++ htmlBs o t is ++ strB "</ol>\n") ++ htmlBs o tight r
  | tight, .customB onE _ c :: r => onE ++ htmlBs o false c ++ htmlBs o tight r

/-- `Node.RenderHTML` from `cmark.go` (engine modelled from the spec):
HTML rendering of the tree under the given options. -/
def RenderHTML (o : ROpts) (d : Doc) : List Nat := htmlBs o false d

/-! ### XML renderer -/

def xmlInls : List Inline → List Nat
  | [] => []
  | .text s :: r => [60, 116, 62] ++ s ++ [60, 47, 116, 62] ++ xmlInls r
  | .soft :: r => [60, 115, 47, 62] ++ xmlInls r
  | .hard :: r => [60, 104, 47, 62] ++ xmlInls r
  | .code s :: r => [60, 99, 62] ++ s ++ [60, 47, 99, 62] ++ xmlInls r
  | .htmlI s :: r => [60, 120, 62] ++ s ++ [60, 47, 120, 62] ++ xmlInls r
  | .emph c :: r => [60, 101, 62] ++ (xmlInls c ++ [60, 47, 101, 62] ++ xmlInls r)
  | .strong c :: r => [60, 98, 62] ++ (xmlInls c ++ [60, 47, 98, 62] ++ xmlInls r)
  | .link dest title c :: r =>
      strB "<a d=\"" ++ dest ++ strB "\" t=\"" ++ title ++ strB "\">" ++
        xmlInls c ++ strB "</a>" ++ xmlInls r
  | .image dest title c :: r =>
      strB "<i d=\"" ++ dest ++ strB "\" t=\"" ++ title ++ strB "\">" ++
        xmlInls c ++ strB "</i>" ++ xmlInls r
  | .customI onE onX c :: r =>
      strB "<ci>" ++ onE ++ xmlInls c ++ onX ++ strB "</ci>" ++ xmlInls r

def xmlBs : List Block → List Nat
  | [] => []
  | .paragraph c :: r => [60, 112, 62] ++ xmlInls c ++ [60, 47, 112, 62] ++ xmlBs r
  | .heading n c :: r =>
      [60, 104, 48 + n, 62] ++ xmlInls c ++ [60, 47, 104, 48 + n, 62] ++ xmlBs r
  | .codeBlock info lit :: r =>
      strB "<cb i=\"" ++ info ++ strB "\">" ++ lit ++ strB "</cb>" ++ xmlBs r
  | .htmlBlock lit :: r => strB "<hb>" ++ lit ++ strB "</hb>" ++ xmlBs r
  | .thematicBreak :: r => strB "<tb/>" ++ xmlBs r
  | .blockQuote c :: r => strB "<bq>" ++ xmlBs c ++ strB "</bq>" ++ xmlBs r
  | .item c :: r => strB "<it>" ++ xmlBs c ++ strB "</it>" ++ xmlBs r
  | .list b m s t is :: r =>
      strB "<ls b=\"" ++ (if b then [49] else [48]) ++ strB "\" m=\"" ++ [m] ++
        strB "\" s=\"" ++ natDec s ++ strB "\" t=\"" ++ (if t then [49] else [48]) ++
        strB "\">" ++ xmlBs is ++ strB "</ls>" ++ xmlBs r
  | .customB onE onX c :: r => strB "<cu>" ++ onE ++ xmlBs c ++ onX ++ strB "</cu>" ++ xmlBs r

/-- `Node.RenderXML` from `cmark.go` (engine modelled from the spec):
a structural serialization of the tree. -/
def RenderXML (d : Doc) : List Nat := [60, 100, 62] ++ xmlBs d ++ [60, 47, 100, 62]

/-! ### Canonical CommonMark renderer -/

/-- Bytes backslash-escaped in canonical CommonMark text output. -/
def cmSpecialB (b : Nat) : Bool :=
  [33, 35, 38, 42, 43, 45, 46, 60, 62, 91, 92, 93, 95, 96].contains b

def cmEscB (b : Nat) : List Nat := if cmSpecialB b then [92, b] else [b]

def cmEscape (s : List Nat) : List Nat := (s.map cmEscB).flatten

/-- Longest run of byte `ch` anywhere in `s`. -/
def maxRun (ch : Nat) (s : List Nat) : Nat :=
  (s.foldl (fun p b => if b == ch then (p.1 + 1, max p.2 (p.1 + 1)) else (0, p.2))
    ((0 : Nat), (0 : Nat))).2

/-- A backtick fence one longer than any run in the content, padded by
spaces when the content touches backticks at its ends. -/
def cmCode (s : List Nat) : List Nat :=
  let f := List.replicate (maxRun 96 s + 1) 96
  let pad := s.head? == some 96 || s.getLast? == some 96
  f ++ (if pad then 32 :: s ++ [32] else s) ++ f

def cmInls : List Inline → List Nat
  | [] => []
  | .text s :: r => cmEscape s ++ cmInls r
  | .soft :: r => 10 :: cmInls r
  | .hard :: r => 92 :: 10 :: cmInls r
  | .code s :: r => cmCode s ++ cmInls r
  | .htmlI s :: r => s ++ cmInls r
  | .emph c :: r => 42 :: (cmInls c ++ 42 :: cmInls r)
  | .strong c :: r => 42 :: 42 :: (cmInls c ++ 42 :: 42 :: cmInls r)
  | .link dest title c :: r =>
      91 :: cmInls c ++ strB "](" ++ dest ++
        (if title.isEmpty then [] else 32 :: 34 :: title ++ [34]) ++ [41] ++ cmInls r
  | .image dest title c :: r =>
      33 :: 91 :: cmInls c ++ strB "](" ++ dest ++
        (if title.isEmpty then [] else 32 :: 34 :: title ++ [34]) ++ [41] ++ cmInls r
  | .customI onE _ c :: r => onE ++ cmInls c ++ cmInls r

def split10 : List Nat → List (List Nat)
  | [] => [[]]
  | 10 :: r => [] :: split10 r
  | b :: r =>
      match split10 r with
      | l :: ls => (b :: l) :: ls
      | [] => [[b]]

/-- Prefix every line of a rendered fragment (blockquote markers, list
item continuation indents). -/
def prefixLines (p : List Nat) (s : List Nat) : List Nat :=
  joinNl ((split10 s).map (fun l => p ++ l))

/-- First line gets the marker, continuation lines the indent. -/
def markLines (mark ind : List Nat) (s : List Nat) : List Nat :=
  match split10 s with
  | [] => mark
  | l :: ls => joinNl ((mark ++ l) :: ls.map (fun l2 => ind ++ l2))

/-- Blocks are separated by one blank line in the canonical output. -/
def joinBlank : List (List Nat) → List Nat
  | [] => []
  | [b] => b
  | b :: r => b ++ 10 :: 10 :: joinBlank r

mutual

def cmBlock : Block → List Nat
  | .paragraph c => cmInls c
  | .heading n c => List.replicate n 35 ++ 32 :: cmInls c
  | .codeBlock info lit =>
      let f := List.replicate (max 3 (maxRun 96 lit + 1)) 96
      f ++ info ++ 10 :: lit ++ f
  | .htmlBlock lit => (lit.reverse.dropWhile (fun b => b == 10)).reverse
  | .thematicBreak => [42, 42, 42]
  | .blockQuote c => prefixLines [62, 32] (cmBlocks c)
  | .item c => cmBlocks c
  | .list b m s t is => cmItems b m s t is
  | .customB onE _ c => onE ++ cmBlocks c

def cmBlocks : List Block → List Nat
  | [] => []
  | [b] => cmBlock b
  | b :: r => cmBlock b ++ 10 :: 10 :: cmBlocks r

def cmItems (bullet : Bool) (m s : Nat) (tight : Bool) : List Block → List Nat
  | [] => []
  | b :: r =>
      let mark := if bullet then [m, 32] else natDec s ++ [m, 32]
      let body := markLines mark (List.replicate mark.length 32) (cmBlock b)
      body ++
        (if r.isEmpty then []
         else (if tight then [10] else [10, 10]) ++ cmItems bullet m (s + 1) tight r)

end

/-- `Node.RenderCommonMark` from `cmark.go` (engine modelled from the
spec): canonical CommonMark re-serialization of the tree. -/
def RenderCommonMark (d : Doc) : List Nat := joinBlank (d.map cmBlock)


/-! ### Tree links and structural edits (modelled from the spec)

Modelled from the spec: `cmark_node_unlink`, `cmark_node_insert_before`,
`cmark_node_insert_after`, `cmark_node_prepend_child` and
`cmark_node_append_child` are not in `src/`.  The spec describes a
parent / previous / next / first-child / last-child pointer structure,
unlink as pointer surgery leaving the subtree intact, and insertion
failing with a structural error — with no partial mutation — when the
inserted node is an ancestor of the target.  Nodes live in an arena and
are addressed by index. -/
structure NRec where
  parent : Option Nat
  prev : Option Nat
  next : Option Nat
  first : Option Nat
  last : Option Nat
deriving DecidableEq

abbrev Arena := List NRec

def getN (a : Arena) (i : Nat) : Option NRec := a.get? i

def setN (a : Arena) (i : Nat) (r : NRec) : Arena := a.set i r

def updN (a : Arena) (i : Nat) (f : NRec → NRec) : Arena :=
  match getN a i with
  | some r => setN a i (f r)
  | none => a

/-- The chain of ancestors of `i`: its parent, the parent's parent, and
so on, cut off by fuel (the arena size bounds any acyclic chain). -/
def parentChain (a : Arena) : Nat → Nat → List Nat
  | 0, _ => []
  | fuel + 1, i =>
      match (getN a i).bind (fun r => r.parent) with
      | none => []
      | some p => p :: parentChain a fuel p

/-- `n` is a (proper) ancestor of `t`. -/
def isAncestor (a : Arena) (n t : Nat) : Bool :=
  (parentChain a a.length t).contains n

/-- The cycle check of the insertion operations: a node may receive
`child` only if `child` is neither the node itself nor one of its
ancestors. -/
def canContain (a : Arena) (node child : Nat) : Bool :=
  !(child == node || isAncestor a child node)

/-- Detach node `i`: the former neighbours (or the parent's first/last
links) are spliced around it and its own parent/sibling links are
cleared; its child links are untouched. -/
def unlink (a : Arena) (i : Nat) : Arena :=
  match getN a i with
  | none => a
  | some nd =>
    let a1 :=
      match nd.prev with
      | some p => updN a p (fun r => { r with next := nd.next })
      | none =>
          match nd.parent with
          | some par => updN a par (fun r => { r with first := nd.next })
          | none => a
    let a2 :=
      match nd.next with
      | some q => updN a1 q (fun r => { r with prev := nd.prev })
      | none =>
          match nd.parent with
          | some par => updN a1 par (fun r => { r with last := nd.prev })
          | none => a1
    updN a2 i (fun r => { r with parent := none, prev := none, next := none })

/-- `Node.Unlink` from `cmark.go` (engine modelled from the spec). -/
def Node.Unlink (a : Arena) (i : Nat) : Arena := unlink a i

/-- C-level `cmark_node_insert_before node s`: status `0` (no mutation)
when `node` has no parent or the cycle/containment check fails;
otherwise `s` is unlinked and spliced in before `node`. -/
def insertBeforeC (a : Arena) (node s : Nat) : Arena × Nat :=
  match getN a node with
  | none => (a, 0)
  | some nr =>
    match nr.parent with
    | none => (a, 0)
    | some par =>
      if canContain a par s then
        let a1 := unlink a s
        match getN a1 node with
        | none => (a1, 0)
        | some nr1 =>
          let a2 := updN a1 s
            (fun r => { r with parent := nr1.parent, prev := nr1.prev, next := some node })
          let a3 :=
            match nr1.prev with
            | some pv => updN a2 pv (fun r => { r with next := some s })
            | none =>
                match nr1.parent with
                | some p2 => updN a2 p2 (fun r => { r with first := some s })
                | none => a2
          (updN a3 node (fun r => { r with prev := some s }), 1)
      else (a, 0)

/-- C-level `cmark_node_insert_after node s`. -/
def insertAfterC (a : Arena) (node s : Nat) : Arena × Nat :=
  match getN a node with
  | none => (a, 0)
  | some nr =>
    match nr.parent with
    | none => (a, 0)
    | some par =>
      if canContain a par s then
        let a1 := unlink a s
        match getN a1 node with
        | none => (a1, 0)
        | some nr1 =>
          let a2 := updN a1 s
            (fun r => { r with parent := nr1.parent, next := nr1.next, prev := some node })
          let a3 :=
            match nr1.next with
            | some nx => updN a2 nx (fun r => { r with prev := some s })
            | none =>
                match nr1.parent with
                | some p2 => updN a2 p2 (fun r => { r with last := some s })
                | none => a2
          (updN a3 node (fun r => { r with next := some s }), 1)
      else (a, 0)

/-- C-level `cmark_node_prepend_child node c`. -/
def prependChildC (a : Arena) (node c : Nat) : Arena × Nat :=
  match getN a node with
  | none => (a, 0)
  | some _ =>
    if canContain a node c then
      let a1 := unlink a c
      match getN a1 node with
      | none => (a1, 0)
      | some nr1 =>
        let a2 := updN a1 c
          (fun r => { r with parent := some node, prev := none, next := nr1.first })
        let a3 :=
          match nr1.first with
          | some f => updN a2 f (fun r => { r with prev := some c })
          | none => updN a2 node (fun r => { r with last := some c })
        (updN a3 node (fun r => { r with first := some c }), 1)
    else (a, 0)

/-- C-level `cmark_node_append_child node c`. -/
def appendChildC (a : Arena) (node c : Nat) : Arena × Nat :=
  match getN a node with
  | none => (a, 0)
  | some _ =>
    if canContain a node c then
      let a1 := unlink a c
      match getN a1 node with
      | none => (a1, 0)
      | some nr1 =>
        let a2 := updN a1 c
          (fun r => { r with parent := some node, next := none, prev := nr1.last })
        let a3 :=
          match nr1.last with
          | some l => updN a2 l (fun r => { r with next := some c })
          | none => updN a2 node (fun r => { r with first := some c })
        (updN a3 node (fun r => { r with last := some c }), 1)
    else (a, 0)

/-- `Node.InsertBefore` from `cmark.go`: error exactly when the C call
reports status 0. -/
def Node.InsertBefore (a : Arena) (n s : Nat) : Arena × Option String :=
  let r := insertBeforeC a n s
  (r.1, if r.2 == 0 then some "InsertBefore failed" else none)

/-- `Node.InsertAfter` from `cmark.go`. -/
def Node.InsertAfter (a : Arena) (n s : Nat) : Arena × Option String :=
  let r := insertAfterC a n s
  (r.1, if r.2 == 0 then some "InsertAfter failed" else none)

/-- `Node.PrependChild` from `cmark.go`. -/
def Node.PrependChild (a : Arena) (n c : Nat) : Arena × Option String :=
  let r := prependChildC a n c
  (r.1, if r.2 == 0 then some "PrependChild failed" else none)

/-- `Node.AppendChild` from `cmark.go`. -/
def Node.AppendChild (a : Arena) (n c : Nat) : Arena × Option String :=
  let r := appendChildC a n c
  (r.1, if r.2 == 0 then some "AppendChild failed" else none)

/-! ### Per-kind node fields (modelled from the spec)

Modelled from the spec: the node's tagged union of kinds with their
type-specific fields (`cmark_node_get_list_start`,
`cmark_node_get_heading_level`, `cmark_node_get_list_tight`,
`cmark_node_get_literal`, `cmark_node_set_literal` are not in `src/`).
Each C getter returns the field for the kinds that carry it and a
zero/NULL default elsewhere; each C setter reports status 1 on the
carrying kinds and status 0 — with the node unchanged — elsewhere. -/

inductive LType where
  | bullet
  | ordered
deriving DecidableEq

inductive LDelim where
  | periodD
  | parenD
deriving DecidableEq

inductive NodeData where
  | document
  | blockQuote
  | list (ltype : LType) (ldelim : LDelim) (start : Nat) (tight : Bool)
  | item
  | codeBlock (info : String) (lit : String)
  | htmlBlock (lit : String)
  | customBlock (enterLit exitLit : String)
  | paragraph
  | heading (lvl : Nat)
  | thematicBreak
  | text (lit : String)
  | softbreak
  | linebreak
  | code (lit : String)
  | htmlInline (lit : String)
  | customInline (enterLit exitLit : String)
  | emphN
  | strongN
  | link (url title : String)
  | image (url title : String)
deriving DecidableEq

/-- C-level `cmark_node_get_list_start`: the stored start number for
list nodes (bullet lists keep the zero default), `0` for every other
kind. -/
def c_get_list_start : NodeData → Nat
  | .list _ _ s _ => s
  | _ => 0

/-- C-level `cmark_node_get_heading_level`: the level for headings, `0`
elsewhere. -/
def c_get_heading_level : NodeData → Nat
  | .heading l => l
  | _ => 0

/-- C-level `cmark_node_get_list_tight`: `1` for a tight list, `0` for
a loose list and for every other kind. -/
def c_get_list_tight : NodeData → Nat
  | .list _ _ _ t => if t then 1 else 0
  | _ => 0

/-- The kinds whose literal payload is meaningful. -/
def literalBearing : NodeData → Bool
  | .text _ => true
  | .code _ => true
  | .htmlBlock _ => true
  | .htmlInline _ => true
  | .codeBlock _ _ => true
  | _ => false

/-- C-level `cmark_node_get_literal`: the payload for literal-bearing
kinds, NULL (here `none`) elsewhere. -/
def c_get_literal : NodeData → Option String
  | .text s => some s
  | .code s => some s
  | .htmlBlock s => some s
  | .htmlInline s => some s
  | .codeBlock _ s => some s
  | _ => none

/-- C-level `cmark_node_set_literal`: overwrite the payload and report
status 1 on literal-bearing kinds; report status 0 and leave the node
unchanged elsewhere. -/
def c_set_literal : NodeData → String → NodeData × Nat
  | .text _, s => (.text s, 1)
  | .code _, s => (.code s, 1)
  | .htmlBlock _, s => (.htmlBlock s, 1)
  | .htmlInline _, s => (.htmlInline s, 1)
  | .codeBlock info _, s => (.codeBlock info s, 1)
  | n, _ => (n, 0)

/-- `Node.ListStart` from `cmark.go`: the C value, with an error exactly
when that value is `0`. -/
def Node.ListStart (n : NodeData) : Nat × Option String :=
  let s := c_get_list_start n
  (s, if s == 0 then some "ListStart can only be called on ordered lists" else none)

/-- `Node.HeadingLevel` from `cmark.go`: the C value, with an error
exactly when that value is `0`. -/
def Node.HeadingLevel (n : NodeData) : Nat × Option String :=
  let l := c_get_heading_level n
  (l, if l == 0 then some "Node is not a heading" else none)

/-- `Node.TightList` from `cmark.go`: true exactly when the C call
returns `1`; there is no error result. -/
def Node.TightList (n : NodeData) : Bool :=
  c_get_list_tight n == 1

/-- `Node.SetLiteral` from `cmark.go`: calls the C setter and returns
nothing — the status is discarded. -/
def Node.SetLiteral (n : NodeData) (s : String) : NodeData :=
  (c_set_literal n s).1

/-- `Node.Literal` from `cmark.go`: `C.GoString` maps the NULL of
non-literal kinds to the empty string. -/
def Node.Literal (n : NodeData) : String :=
  (c_get_literal n).getD ""

/-- An ordered-list node. -/
def isOrderedList : NodeData → Bool
  | .list .ordered _ _ _ => true
  | _ => false

/-- A heading node. -/
def isHeading : NodeData → Bool
  | .heading _ => true
  | _ => false

/-- A list node (either kind). -/
def isList : NodeData → Bool
  | .list _ _ _ _ => true
  | _ => false

/-- The tightness flag, false off lists. -/
def listTightFlag : NodeData → Bool
  | .list _ _ _ t => t
  | _ => false

/-- Headings carry levels 1–6 (the parser and `SetHeadingLevel` never
produce others); other kinds are unconstrained. -/
def headingWF : NodeData → Bool
  | .heading l => 1 ≤ l && l ≤ 6
  | _ => true



/-! ### Helper lemmas -/

theorem get?_set_same {α : Type} (l : List α) (i : Nat) (x : α) (h : i < l.length) :
    (l.set i x).get? i = some x := by
  induction l generalizing i with
  | nil => simp at h
  | cons a t ih =>
      cases i with
      | zero => rfl
      | succ n => simpa using ih n (by simpa using h)

theorem get?_set_other {α : Type} (l : List α) (i j : Nat) (x : α) (h : i ≠ j) :
    (l.set i x).get? j = l.get? j := by
  induction l generalizing i j with
  | nil => rfl
  | cons a t ih =>
      cases i with
      | zero => cases j with
        | zero => exact absurd rfl h
        | succ m => rfl
      | succ n => cases j with
        | zero => rfl
        | succ m => simpa using ih n m (by omega)

theorem get?_isSome_of_lt {α : Type} (l : List α) (i : Nat) (h : i < l.length) :
    ∃ x, l.get? i = some x := by
  induction l generalizing i with
  | nil => simp at h
  | cons a t ih =>
      cases i with
      | zero => exact ⟨a, rfl⟩
      | succ n => simpa using ih n (by simpa using h)

theorem feedBytes_append (p : PState) (xs ys : List Nat) :
    feedBytes p (xs ++ ys) = feedBytes (feedBytes p xs) ys := by
  simp [feedBytes]

theorem writeAll_eq_feed_flatten (p : PState) (cs : List (List Nat)) :
    writeAll p cs = feedBytes p cs.flatten := by
  induction cs generalizing p with
  | nil => rfl
  | cons c cs ih =>
      show writeAll (feedBytes p c) cs = _
      rw [ih, List.flatten_cons, feedBytes_append]

/-! ### Claim theorems -/

/-- C8: `Parser.Write` never reports an error — for every parser state
and byte slice it returns the slice length and a `nil` error. -/
theorem write_returns_len_nil (p : PState) (b : List Nat) :
    (Parser.Write p b).2 = (b.length, none) := rfl

/-- C10: `Node.TightList` is true exactly on list nodes whose tightness
flag is set; loose lists and non-list nodes both yield `false`, and the
result type carries no error value to distinguish them. -/
theorem tightList_conflates (n : NodeData) :
    Node.TightList n = true ↔ (isList n = true ∧ listTightFlag n = true) := by
  cases n <;>
    simp [Node.TightList, c_get_list_tight, isList, listTightFlag]

/-- C9: `Node.SetLiteral` returns no status; on a node whose kind is not
literal-bearing the call is a silent no-op — the node is unchanged and
`Node.Literal` reads back the empty string. -/
theorem setLiteral_silent (n : NodeData) (s : String)
    (h : literalBearing n = false) :
    Node.SetLiteral n s = n ∧ Node.Literal n = "" := by
  cases n <;> first
    | exact ⟨rfl, rfl⟩
    | simp [literalBearing] at h

/-- C9 witness: a paragraph node is left unchanged by `SetLiteral` and
reads back an empty literal. -/
theorem setLiteral_silent_witness :
    Node.SetLiteral NodeData.paragraph "x" = NodeData.paragraph ∧
      Node.Literal NodeData.paragraph = "" :=
  setLiteral_silent NodeData.paragraph "x" rfl

/-- C7 counterexample: an ordered list whose start number is 0 (as
produced by the marker `0.` or by `SetListStart 0`) is an ordered-list
node, yet `Node.ListStart` reports an error — refuting "error iff not
an ordered-list node" at this input. -/
theorem listStart_mismatch_counterexample :
    ¬ (((Node.ListStart (NodeData.list .ordered .periodD 0 true)).2.isSome) ↔
        isOrderedList (NodeData.list .ordered .periodD 0 true) = false) := by
  decide

/-- C7 (amended): `Node.ListStart` errors exactly when the C-level start
value is 0 — true of every non-list, of bullet lists with the zero
default, and of ordered lists starting at 0; `Node.HeadingLevel` errors
exactly on non-headings, given that headings carry levels 1–6. -/
theorem accessors_error_iff (n : NodeData) (hwf : headingWF n = true) :
    (((Node.ListStart n).2).isSome ↔ c_get_list_start n = 0) ∧
      (((Node.HeadingLevel n).2).isSome ↔ isHeading n = false) := by
  constructor
  · cases n <;> simp [Node.ListStart, c_get_list_start]
  · cases n <;> simp [Node.HeadingLevel, c_get_heading_level, isHeading]
    rename_i l
    simp [headingWF] at hwf
    omega

/-- C7 witness: evaluated at a level-2 heading. -/
theorem accessors_error_iff_witness :
    (((Node.ListStart (NodeData.heading 2)).2).isSome ↔
        c_get_list_start (NodeData.heading 2) = 0) ∧
      (((Node.HeadingLevel (NodeData.heading 2)).2).isSome ↔
        isHeading (NodeData.heading 2) = false) :=
  accessors_error_iff (NodeData.heading 2) rfl

/-- C4: the input `*a **b** c*` parses to a single paragraph whose
content is `Emph[Text "a ", Strong[Text "b"], Text " c"]`. -/
theorem emphasis_precedence :
    Parser.Tree ((Parser.Write newParser
        [42, 97, 32, 42, 42, 98, 42, 42, 32, 99, 42]).1) =
      some [Block.paragraph [Inline.emph
        [Inline.text [97, 32], Inline.strong [Inline.text [98]],
          Inline.text [32, 99]]]] := rfl

/-- C2: feeding a document in any sequence of chunks and finishing gives
a tree with the same XML rendering as feeding it in one chunk — the
streaming state machine is insensitive to chunk boundaries, including
boundaries inside a codepoint or a line. -/
theorem chunking_invariance (cs : List (List Nat)) :
    (Parser.Tree (writeAll newParser cs)).map RenderXML =
      (Parser.Tree ((Parser.Write newParser cs.flatten).1)).map RenderXML := by
  rw [show (Parser.Write newParser cs.flatten).1 = feedBytes newParser cs.flatten from rfl,
    writeAll_eq_feed_flatten]

theorem chain_mono (a : Arena) :
    ∀ f g i, f ≤ g → ∀ x, x ∈ parentChain a f i → x ∈ parentChain a g i := by
  intro f
  induction f with
  | zero => intro g i _ x hx; simp [parentChain] at hx
  | succ m ih =>
      intro g i hfg x hx
      cases g with
      | zero => omega
      | succ k =>
          unfold parentChain at hx ⊢
          cases hp : (getN a i).bind (fun r => r.parent) with
          | none => rw [hp] at hx; simp at hx
          | some p =>
              rw [hp] at hx
              rcases List.mem_cons.mp hx with h | h
              · exact List.mem_cons.mpr (Or.inl h)
              · exact List.mem_cons.mpr (Or.inr (ih k p (by omega) x h))

theorem isAncestor_elim (a : Arena) (n t : Nat) (h : isAncestor a n t = true) :
    ∃ tr p, getN a t = some tr ∧ tr.parent = some p ∧
      (n = p ∨ isAncestor a n p = true) := by
  unfold isAncestor at h
  rw [List.elem_iff] at h
  cases halen : a.length with
  | zero => rw [halen] at h; simp [parentChain] at h
  | succ f =>
      rw [halen] at h
      unfold parentChain at h
      cases hp : (getN a t).bind (fun r => r.parent) with
      | none => rw [hp] at h; simp at h
      | some p =>
          rw [hp] at h
          obtain ⟨tr, hget, hpar⟩ := Option.bind_eq_some.mp hp
          refine ⟨tr, p, hget, hpar, ?_⟩
          rcases List.mem_cons.mp h with h1 | h1
          · exact Or.inl h1
          · refine Or.inr ?_
            unfold isAncestor
            rw [List.elem_iff, halen]
            exact chain_mono a f (f + 1) p (by omega) n h1

/-- C5: attaching a node `n` that is an ancestor of the target `t` fails
with a structural error through every one of `InsertBefore`,
`InsertAfter`, `PrependChild` and `AppendChild`, and in every case the
arena — hence both affected subtrees — is returned unchanged. -/
theorem cycle_prevention (a : Arena) (t n : Nat) (h : isAncestor a n t = true) :
    Node.InsertBefore a t n = (a, some "InsertBefore failed") ∧
      Node.InsertAfter a t n = (a, some "InsertAfter failed") ∧
      Node.PrependChild a t n = (a, some "PrependChild failed") ∧
      Node.AppendChild a t n = (a, some "AppendChild failed") := by
  obtain ⟨tr, p, hget, hpar, hdisj⟩ := isAncestor_elim a n t h
  have hccp : canContain a p n = false := by
    rcases hdisj with h1 | h1
    · simp [canContain, h1]
    · simp [canContain, h1]
  have hcct : canContain a t n = false := by simp [canContain, h]
  refine ⟨?_, ?_, ?_, ?_⟩
  · simp [Node.InsertBefore, insertBeforeC, hget, hpar, hccp]
  · simp [Node.InsertAfter, insertAfterC, hget, hpar, hccp]
  · simp [Node.PrependChild, prependChildC, hget, hcct]
  · simp [Node.AppendChild, appendChildC, hget, hcct]

/-- C5 witness: in a two-node arena where node 0 is the parent of node
1, attaching 0 relative to 1 fails in all four ways with the arena
unchanged. -/
theorem cycle_prevention_witness :
    Node.InsertBefore [⟨none, none, none, some 1, some 1⟩,
        ⟨some 0, none, none, none, none⟩] 1 0 =
      ([⟨none, none, none, some 1, some 1⟩, ⟨some 0, none, none, none, none⟩],
        some "InsertBefore failed") ∧
      Node.InsertAfter [⟨none, none, none, some 1, some 1⟩,
        ⟨some 0, none, none, none, none⟩] 1 0 =
      ([⟨none, none, none, some 1, some 1⟩, ⟨some 0, none, none, none, none⟩],
        some "InsertAfter failed") ∧
      Node.PrependChild [⟨none, none, none, some 1, some 1⟩,
        ⟨some 0, none, none, none, none⟩] 1 0 =
      ([⟨none, none, none, some 1, some 1⟩, ⟨some 0, none, none, none, none⟩],
        some "PrependChild failed") ∧
      Node.AppendChild [⟨none, none, none, some 1, some 1⟩,
        ⟨some 0, none, none, none, none⟩] 1 0 =
      ([⟨none, none, none, some 1, some 1⟩, ⟨some 0, none, none, none, none⟩],
        some "AppendChild failed") :=
  cycle_prevention [⟨none, none, none, some 1, some 1⟩,
    ⟨some 0, none, none, none, none⟩] 1 0 (by decide)

theorem getN_lt (a : Arena) (i : Nat) (r : NRec) (h : getN a i = some r) :
    i < a.length := by
  by_contra hc
  unfold getN at h
  rw [List.get?_eq_none.mpr (by omega)] at h
  exact Option.noConfusion h

theorem updN_self (a : Arena) (i : Nat) (f : NRec → NRec) (r : NRec)
    (h : getN a i = some r) : getN (updN a i f) i = some (f r) := by
  unfold updN
  rw [h]
  exact get?_set_same a i (f r) (getN_lt a i r h)

theorem updN_other (a : Arena) (i j : Nat) (f : NRec → NRec) (h : j ≠ i) :
    getN (updN a i f) j = getN a j := by
  unfold updN
  cases hg : getN a i with
  | none => rfl
  | some r => exact get?_set_other a i j (f r) (fun e => h e.symm)


/-- C6: after `Unlink`, the former previous and next siblings point at
each other (or the parent's first/last links are updated when the node
was at an end), the unlinked node's own parent/sibling links are
cleared while its child links — its subtree — are intact, and every
other node is untouched, so the remaining chain is contiguous and no
longer contains the node. -/
theorem unlink_contiguity (a : Arena) (i : Nat) (nd : NRec) (par : Nat)
    (hget : getN a i = some nd) (hpar : nd.parent = some par)
    (hpi : nd.prev ≠ some i) (hni : nd.next ≠ some i) (hparI : par ≠ i)
    (hplen : ∀ p, nd.prev = some p → p < a.length)
    (hqlen : ∀ q, nd.next = some q → q < a.length)
    (hparlen : par < a.length) :
    (∀ p, nd.prev = some p →
      ∃ pr, getN (Node.Unlink a i) p = some pr ∧ pr.next = nd.next) ∧
      (nd.prev = none →
        ∃ pa, getN (Node.Unlink a i) par = some pa ∧ pa.first = nd.next) ∧
      (∀ q, nd.next = some q →
        ∃ qr, getN (Node.Unlink a i) q = some qr ∧ qr.prev = nd.prev) ∧
      (nd.next = none →
        ∃ pa, getN (Node.Unlink a i) par = some pa ∧ pa.last = nd.prev) ∧
      (∃ nr, getN (Node.Unlink a i) i = some nr ∧ nr.parent = none ∧
        nr.prev = none ∧ nr.next = none ∧ nr.first = nd.first ∧
        nr.last = nd.last) ∧
      (∀ j, j ≠ i → some j ≠ nd.prev → some j ≠ nd.next → j ≠ par →
        getN (Node.Unlink a i) j = getN a j) := by
  obtain ⟨parr, hparr⟩ : ∃ x, getN a par = some x := get?_isSome_of_lt a par hparlen
  cases hprev : nd.prev with
  | some p =>
    have hpl : p < a.length := hplen p hprev
    have hpne : p ≠ i := fun e => hpi (by rw [hprev, e])
    obtain ⟨pr, hpr⟩ : ∃ x, getN a p = some x := get?_isSome_of_lt a p hpl
    cases hnext : nd.next with
    | some q =>
      have hql : q < a.length := hqlen q hnext
      have hqne : q ≠ i := fun e => hni (by rw [hnext, e])
      obtain ⟨qr, hqr⟩ : ∃ x, getN a q = some x := get?_isSome_of_lt a q hql
      have ha' : Node.Unlink a i =
          updN (updN (updN a p (fun r => { r with next := some q })) q
              (fun r => { r with prev := some p }))
            i (fun r => { r with parent := none, prev := none, next := none }) := by
        simp only [Node.Unlink, unlink, hget, hprev, hnext]
      refine ⟨?_, ?_, ?_, ?_, ?_, ?_⟩
      · intro p' hp'
        rw [show p' = p from (Option.some.inj hp').symm]
        rw [ha', updN_other _ i p _ hpne]
        by_cases hpq : p = q
        · subst hpq
          have h1 := updN_self a p (fun r => { r with next := some p }) pr hpr
          have h2 := updN_self _ p (fun r => { r with prev := some p }) _ h1
          exact ⟨_, h2, rfl⟩
        · rw [updN_other _ q p _ hpq]
          exact ⟨_, updN_self a p (fun r => { r with next := some q }) pr hpr, rfl⟩
      · intro hc; exact Option.noConfusion hc
      · intro q' hq'
        rw [show q' = q from (Option.some.inj hq').symm]
        rw [ha', updN_other _ i q _ hqne]
        by_cases hqp : q = p
        · subst hqp
          have h1 := updN_self a q (fun r => { r with next := some q }) pr hpr
          have h2 := updN_self _ q (fun r => { r with prev := some q }) _ h1
          exact ⟨_, h2, rfl⟩
        · have h1 : getN (updN a p (fun r => { r with next := some q })) q = some qr := by
            rw [updN_other _ p q _ hqp]; exact hqr
          exact ⟨_, updN_self _ q (fun r => { r with prev := some p }) _ h1, rfl⟩
      · intro hc; exact Option.noConfusion hc
      · have h1 : getN (updN (updN a p (fun r => { r with next := some q })) q
            (fun r => { r with prev := some p })) i = some nd := by
          rw [updN_other _ q i _ (Ne.symm hqne), updN_other _ p i _ (Ne.symm hpne)]
          exact hget
        refine ⟨(⟨none, none, none, nd.first, nd.last⟩ : NRec), ?_, rfl, rfl, rfl, rfl, rfl⟩
        rw [ha']
        exact updN_self _ i _ _ h1
      · intro j hji hjp hjq _
        have hjp' : j ≠ p := fun e => hjp (by rw [e])
        have hjq' : j ≠ q := fun e => hjq (by rw [e])
        rw [ha', updN_other _ i j _ hji, updN_other _ q j _ hjq',
          updN_other _ p j _ hjp']
    | none =>
      have ha' : Node.Unlink a i =
          updN (updN (updN a p (fun r => { r with next := none })) par
              (fun r => { r with last := some p }))
            i (fun r => { r with parent := none, prev := none, next := none }) := by
        simp only [Node.Unlink, unlink, hget, hprev, hnext, hpar]
      refine ⟨?_, ?_, ?_, ?_, ?_, ?_⟩
      · intro p' hp'
        rw [show p' = p from (Option.some.inj hp').symm]
        rw [ha', updN_other _ i p _ hpne]
        by_cases hppar : par = p
        · subst hppar
          have h1 := updN_self a par (fun r => { r with next := none }) pr hpr
          have h2 := updN_self _ par (fun r => { r with last := some par }) _ h1
          exact ⟨_, h2, rfl⟩
        · rw [updN_other _ par p _ (Ne.symm hppar)]
          exact ⟨_, updN_self a p (fun r => { r with next := none }) pr hpr, rfl⟩
      · intro hc; exact Option.noConfusion hc
      · intro q' hq'; exact Option.noConfusion hq'
      · intro _
        rw [ha', updN_other _ i par _ hparI]
        by_cases hppar : p = par
        · subst hppar
          have h1 := updN_self a p (fun r => { r with next := none }) pr hpr
          have h2 := updN_self _ p (fun r => { r with last := some p }) _ h1
          exact ⟨_, h2, rfl⟩
        · have h1 : getN (updN a p (fun r => { r with next := none })) par =
              some parr := by rw [updN_other _ p par _ (Ne.symm hppar)]; exact hparr
          exact ⟨_, updN_self _ par (fun r => { r with last := some p }) _ h1, rfl⟩
      · have h1 : getN (updN (updN a p (fun r => { r with next := none })) par
            (fun r => { r with last := some p })) i = some nd := by
          rw [updN_other _ par i _ (Ne.symm hparI), updN_other _ p i _ (Ne.symm hpne)]
          exact hget
        refine ⟨(⟨none, none, none, nd.first, nd.last⟩ : NRec), ?_, rfl, rfl, rfl, rfl, rfl⟩
        rw [ha']
        exact updN_self _ i _ _ h1
      · intro j hji hjp _ hjpar
        have hjp' : j ≠ p := fun e => hjp (by rw [e])
        rw [ha', updN_other _ i j _ hji, updN_other _ par j _ hjpar,
          updN_other _ p j _ hjp']
  | none =>
    cases hnext : nd.next with
    | some q =>
      have hql : q < a.length := hqlen q hnext
      have hqne : q ≠ i := fun e => hni (by rw [hnext, e])
      obtain ⟨qr, hqr⟩ : ∃ x, getN a q = some x := get?_isSome_of_lt a q hql
      have ha' : Node.Unlink a i =
          updN (updN (updN a par (fun r => { r with first := some q })) q
              (fun r => { r with prev := none }))
            i (fun r => { r with parent := none, prev := none, next := none }) := by
        simp only [Node.Unlink, unlink, hget, hprev, hnext, hpar]
      refine ⟨?_, ?_, ?_, ?_, ?_, ?_⟩
      · intro p' hp'; exact Option.noConfusion hp'
      · intro _
        rw [ha', updN_other _ i par _ hparI]
        by_cases hqpar : q = par
        · subst hqpar
          have h1 := updN_self a q (fun r => { r with first := some q }) parr hparr
          have h2 := updN_self _ q (fun r => { r with prev := none }) _ h1
          exact ⟨_, h2, rfl⟩
        · rw [updN_other _ q par _ (Ne.symm hqpar)]
          exact ⟨_, updN_self a par (fun r => { r with first := some q }) parr hparr,
            rfl⟩
      · intro q' hq'
        rw [show q' = q from (Option.some.inj hq').symm]
        rw [ha', updN_other _ i q _ hqne]
        by_cases hqpar : q = par
        · subst hqpar
          have h1 := updN_self a q (fun r => { r with first := some q }) parr hparr
          have h2 := updN_self _ q (fun r => { r with prev := none }) _ h1
          exact ⟨_, h2, rfl⟩
        · have h1 : getN (updN a par (fun r => { r with first := some q })) q =
              some qr := by rw [updN_other _ par q _ hqpar]; exact hqr
          exact ⟨_, updN_self _ q (fun r => { r with prev := none }) _ h1, rfl⟩
      · intro hc; exact Option.noConfusion hc
      · have h1 : getN (updN (updN a par (fun r => { r with first := some q })) q
            (fun r => { r with prev := none })) i = some nd := by
          rw [updN_other _ q i _ (Ne.symm hqne), updN_other _ par i _ (Ne.symm hparI)]
          exact hget
        refine ⟨(⟨none, none, none, nd.first, nd.last⟩ : NRec), ?_, rfl, rfl, rfl, rfl, rfl⟩
        rw [ha']
        exact updN_self _ i _ _ h1
      · intro j hji _ hjq hjpar
        have hjq' : j ≠ q := fun e => hjq (by rw [e])
        rw [ha', updN_other _ i j _ hji, updN_other _ q j _ hjq',
          updN_other _ par j _ hjpar]
    | none =>
      have ha' : Node.Unlink a i =
          updN (updN (updN a par (fun r => { r with first := none })) par
              (fun r => { r with last := none }))
            i (fun r => { r with parent := none, prev := none, next := none }) := by
        simp only [Node.Unlink, unlink, hget, hprev, hnext, hpar]
      have h1 := updN_self a par (fun r => { r with first := none }) parr hparr
      have h2 := updN_self _ par (fun r => { r with last := none }) _ h1
      refine ⟨?_, ?_, ?_, ?_, ?_, ?_⟩
      · intro p' hp'; exact Option.noConfusion hp'
      · intro _
        rw [ha', updN_other _ i par _ hparI]
        exact ⟨_, h2, rfl⟩
      · intro q' hq'; exact Option.noConfusion hq'
      · intro _
        rw [ha', updN_other _ i par _ hparI]
        exact ⟨_, h2, rfl⟩
      · have h3 : getN (updN (updN a par (fun r => { r with first := none })) par
            (fun r => { r with last := none })) i = some nd := by
          rw [updN_other _ par i _ (Ne.symm hparI), updN_other _ par i _ (Ne.symm hparI)]
          exact hget
        refine ⟨(⟨none, none, none, nd.first, nd.last⟩ : NRec), ?_, rfl, rfl, rfl, rfl, rfl⟩
        rw [ha']
        exact updN_self _ i _ _ h3
      · intro j hji _ _ hjpar
        rw [ha', updN_other _ i j _ hji, updN_other _ par j _ hjpar,
          updN_other _ par j _ hjpar]

/-- C6 witness: unlinking the middle child of three siblings makes the
former previous sibling point at the former next sibling. -/
theorem unlink_contiguity_witness :
    ∃ pr, getN (Node.Unlink [⟨none, none, none, some 1, some 3⟩,
        ⟨some 0, none, some 2, none, none⟩,
        ⟨some 0, some 1, some 3, none, none⟩,
        ⟨some 0, some 2, none, none, none⟩] 2) 1 = some pr ∧
      pr.next = some 3 :=
  (unlink_contiguity [⟨none, none, none, some 1, some 3⟩,
      ⟨some 0, none, some 2, none, none⟩,
      ⟨some 0, some 1, some 3, none, none⟩,
      ⟨some 0, some 2, none, none, none⟩] 2
    ⟨some 0, some 1, some 3, none, none⟩ 0 rfl rfl
    (by decide) (by decide) (by decide)
    (by intro p hp; simp at hp ⊢; omega)
    (by intro q hq; simp at hq ⊢; omega)
    (by decide)).1 1 rfl


/-! ### Totality of the delimiter pass -/

theorem sumD_cons (it : IItem) (r : List IItem) :
    sumD (it :: r) = dLen it + sumD r := by
  cases it <;> simp [sumD, dLen]

theorem sumD_append (xs ys : List IItem) :
    sumD (xs ++ ys) = sumD xs + sumD ys := by
  induction xs with
  | nil => simp [sumD]
  | cons x r ih => rw [List.cons_append, sumD_cons, sumD_cons, ih]; omega

theorem scanOpener_split (ch clen : Nat) (copen : Bool) :
    ∀ (left above : List IItem) (olen : Nat) (oo oc : Bool) (below : List IItem),
    scanOpener ch clen copen left = some (above, olen, oo, oc, below) →
    left = above ++ IItem.delim ch olen oo oc :: below ∧ 0 < olen := by
  intro left
  induction left with
  | nil => intro above olen oo oc below h; simp [scanOpener] at h
  | cons it rest ih =>
      intro above olen oo oc below h
      cases it with
      | delim dch l o c =>
          rw [scanOpener] at h
          split at h
          · rename_i hcond
            simp only [Option.some.injEq, Prod.mk.injEq] at h
            obtain ⟨h1, h2, h3, h4, h5⟩ := h
            subst h1 h2 h3 h4 h5
            simp only [Bool.and_eq_true, bne_iff_ne, ne_eq, beq_iff_eq] at hcond
            refine ⟨?_, ?_⟩
            · rw [hcond.1.1.1]; simp
            · omega
          · cases hrec : scanOpener ch clen copen rest with
            | none => rw [hrec] at h; exact absurd h (by simp)
            | some tup =>
                obtain ⟨ab, ol, o1, o2, bl⟩ := tup
                rw [hrec] at h
                simp only [Option.some.injEq, Prod.mk.injEq] at h
                obtain ⟨h1, h2, h3, h4, h5⟩ := h
                subst h1 h2 h3 h4 h5
                obtain ⟨hs, hp⟩ := ih ab ol o1 o2 bl hrec
                exact ⟨by rw [hs]; simp, hp⟩
      | text s =>
          rw [scanOpener] at h
          cases hrec : scanOpener ch clen copen rest with
          | none => rw [hrec] at h; exact absurd h (by simp)
          | some tup =>
              obtain ⟨ab, ol, o1, o2, bl⟩ := tup
              rw [hrec] at h
              simp only [Option.some.injEq, Prod.mk.injEq] at h
              obtain ⟨h1, h2, h3, h4, h5⟩ := h
              subst h1 h2 h3 h4 h5
              obtain ⟨hs, hp⟩ := ih ab ol o1 o2 bl hrec
              exact ⟨by rw [hs]; simp, hp⟩
          intro a b c d hc
          exact IItem.noConfusion hc
      | soft =>
          rw [scanOpener] at h
          cases hrec : scanOpener ch clen copen rest with
          | none => rw [hrec] at h; exact absurd h (by simp)
          | some tup =>
              obtain ⟨ab, ol, o1, o2, bl⟩ := tup
              rw [hrec] at h
              simp only [Option.some.injEq, Prod.mk.injEq] at h
              obtain ⟨h1, h2, h3, h4, h5⟩ := h
              subst h1 h2 h3 h4 h5
              obtain ⟨hs, hp⟩ := ih ab ol o1 o2 bl hrec
              exact ⟨by rw [hs]; simp, hp⟩
          intro a b c d hc
          exact IItem.noConfusion hc
      | hard =>
          rw [scanOpener] at h
          cases hrec : scanOpener ch clen copen rest with
          | none => rw [hrec] at h; exact absurd h (by simp)
          | some tup =>
              obtain ⟨ab, ol, o1, o2, bl⟩ := tup
              rw [hrec] at h
              simp only [Option.some.injEq, Prod.mk.injEq] at h
              obtain ⟨h1, h2, h3, h4, h5⟩ := h
              subst h1 h2 h3 h4 h5
              obtain ⟨hs, hp⟩ := ih ab ol o1 o2 bl hrec
              exact ⟨by rw [hs]; simp, hp⟩
          intro a b c d hc
          exact IItem.noConfusion hc
      | obracket im ac =>
          rw [scanOpener] at h
          cases hrec : scanOpener ch clen copen rest with
          | none => rw [hrec] at h; exact absurd h (by simp)
          | some tup =>
              obtain ⟨ab, ol, o1, o2, bl⟩ := tup
              rw [hrec] at h
              simp only [Option.some.injEq, Prod.mk.injEq] at h
              obtain ⟨h1, h2, h3, h4, h5⟩ := h
              subst h1 h2 h3 h4 h5
              obtain ⟨hs, hp⟩ := ih ab ol o1 o2 bl hrec
              exact ⟨by rw [hs]; simp, hp⟩
          intro a b c d hc
          exact IItem.noConfusion hc
      | node i =>
          rw [scanOpener] at h
          cases hrec : scanOpener ch clen copen rest with
          | none => rw [hrec] at h; exact absurd h (by simp)
          | some tup =>
              obtain ⟨ab, ol, o1, o2, bl⟩ := tup
              rw [hrec] at h
              simp only [Option.some.injEq, Prod.mk.injEq] at h
              obtain ⟨h1, h2, h3, h4, h5⟩ := h
              subst h1 h2 h3 h4 h5
              obtain ⟨hs, hp⟩ := ih ab ol o1 o2 bl hrec
              exact ⟨by rw [hs]; simp, hp⟩
          intro a b c d hc
          exact IItem.noConfusion hc

theorem procEmph_total :
    ∀ fuel left right, 2 * (sumD left + sumD right) + right.length < fuel →
    (procEmph fuel left right).isSome := by
  intro fuel
  induction fuel with
  | zero => intro left right h; omega
  | succ f ih =>
      intro left right h
      cases right with
      | nil => simp [procEmph]
      | cons r rs =>
          cases r with
          | text s =>
              show (procEmph f (IItem.text s :: left) rs).isSome
              apply ih
              rw [sumD_cons] at h ⊢
              simp only [dLen] at h ⊢
              simp only [List.length_cons] at h
              omega
          | soft =>
              show (procEmph f (IItem.soft :: left) rs).isSome
              apply ih
              rw [sumD_cons] at h ⊢
              simp only [dLen] at h ⊢
              simp only [List.length_cons] at h
              omega
          | hard =>
              show (procEmph f (IItem.hard :: left) rs).isSome
              apply ih
              rw [sumD_cons] at h ⊢
              simp only [dLen] at h ⊢
              simp only [List.length_cons] at h
              omega
          | obracket im ac =>
              show (procEmph f (IItem.obracket im ac :: left) rs).isSome
              apply ih
              rw [sumD_cons] at h ⊢
              simp only [dLen] at h ⊢
              simp only [List.length_cons] at h
              omega
          | node i =>
              show (procEmph f (IItem.node i :: left) rs).isSome
              apply ih
              rw [sumD_cons] at h ⊢
              simp only [dLen] at h ⊢
              simp only [List.length_cons] at h
              omega
          | delim ch clen copen cclose =>
              rw [sumD_cons, List.length_cons] at h
              simp only [dLen] at h
              by_cases hcc : (cclose && clen != 0) = true
              · have hclen : clen ≠ 0 := by
                  simp only [Bool.and_eq_true, bne_iff_ne, ne_eq] at hcc
                  exact hcc.2
                simp only [procEmph, if_pos hcc]
                cases hscan : scanOpener ch clen copen left with
                | none =>
                    apply ih
                    rw [sumD_cons]
                    simp only [dLen]
                    omega
                | some tup =>
                    obtain ⟨above, olen, oo, oc, below⟩ := tup
                    obtain ⟨hstruct, holen⟩ :=
                      scanOpener_split ch clen copen left above olen oo oc below hscan
                    subst hstruct
                    rw [sumD_append, sumD_cons] at h
                    simp only [dLen] at h
                    by_cases h2 : 2 ≤ olen ∧ 2 ≤ clen
                    · simp only [if_pos h2]
                      apply ih
                      rw [sumD_cons]
                      simp only [dLen, sumD]
                      by_cases ho : 2 < olen
                      · rw [if_pos ho, sumD_cons]
                        simp only [dLen]
                        by_cases hc2 : 2 < clen
                        · rw [if_pos hc2, sumD_cons, List.length_cons]
                          simp only [dLen]
                          omega
                        · rw [if_neg hc2]
                          omega
                      · rw [if_neg ho]
                        by_cases hc2 : 2 < clen
                        · rw [if_pos hc2, sumD_cons, List.length_cons]
                          simp only [dLen]
                          omega
                        · rw [if_neg hc2]
                          omega
                    · simp only [if_neg h2]
                      apply ih
                      rw [sumD_cons]
                      simp only [dLen, sumD]
                      by_cases ho : 1 < olen
                      · rw [if_pos ho, sumD_cons]
                        simp only [dLen]
                        by_cases hc2 : 1 < clen
                        · rw [if_pos hc2, sumD_cons, List.length_cons]
                          simp only [dLen]
                          omega
                        · rw [if_neg hc2]
                          omega
                      · rw [if_neg ho]
                        by_cases hc2 : 1 < clen
                        · rw [if_pos hc2, sumD_cons, List.length_cons]
                          simp only [dLen]
                          omega
                        · rw [if_neg hc2]
                          omega
              · simp only [procEmph, if_neg hcc]
                apply ih
                rw [sumD_cons]
                simp only [dLen]
                omega

/-! ### Every sub-scanner consumes only a suffix -/

theorem findRun_le (n : Nat) :
    ∀ fuel l c rest, findRun n fuel l = some (c, rest) → rest.length ≤ l.length := by
  intro fuel
  induction fuel with
  | zero => intro l c rest h; simp [findRun] at h
  | succ f ih =>
      intro l c rest h
      cases l with
      | nil => simp [findRun] at h
      | cons b r =>
          rw [findRun] at h
          by_cases hb : (b == 96) = true
          · rw [if_pos hb] at h
            by_cases hk : (runLen 96 (b :: r) == n) = true
            · rw [if_pos hk] at h
              simp only [Option.some.injEq, Prod.mk.injEq] at h
              rw [← h.2]
              simpa using List.length_drop_le _ _
            · rw [if_neg hk] at h
              cases hrec : findRun n f ((b :: r).drop (runLen 96 (b :: r))) with
              | none => rw [hrec] at h; exact absurd h (by simp)
              | some p =>
                  obtain ⟨c2, rest2⟩ := p
                  rw [hrec] at h
                  simp only [Option.some.injEq, Prod.mk.injEq] at h
                  rw [← h.2]
                  calc rest2.length ≤ ((b :: r).drop (runLen 96 (b :: r))).length :=
                        ih _ c2 rest2 hrec
                    _ ≤ (b :: r).length := by simpa using List.length_drop_le _ _
          · rw [if_neg hb] at h
            cases hrec : findRun n f r with
            | none => rw [hrec] at h; exact absurd h (by simp)
            | some p =>
                obtain ⟨c2, rest2⟩ := p
                rw [hrec] at h
                simp only [Option.some.injEq, Prod.mk.injEq] at h
                rw [← h.2]
                have := ih r c2 rest2 hrec
                simp only [List.length_cons]
                omega

theorem scanThrough_le (pat : List Nat) :
    ∀ l c rest, scanThrough pat l = some (c, rest) → rest.length ≤ l.length := by
  intro l
  induction l with
  | nil => intro c rest h; simp [scanThrough] at h
  | cons b r ih =>
      intro c rest h
      rw [scanThrough] at h
      by_cases hp : pat.isPrefixOf (b :: r) = true
      · rw [if_pos hp] at h
        simp only [Option.some.injEq, Prod.mk.injEq] at h
        rw [← h.2]
        simpa using List.length_drop_le _ _
      · rw [if_neg hp] at h
        cases hrec : scanThrough pat r with
        | none => rw [hrec] at h; exact absurd h (by simp)
        | some p =>
            obtain ⟨c2, rest2⟩ := p
            rw [hrec] at h
            simp only [Option.some.injEq, Prod.mk.injEq] at h
            rw [← h.2]
            have := ih c2 rest2 hrec
            simp only [List.length_cons]
            omega

theorem uriBody_le :
    ∀ l c rest, uriBody l = some (c, rest) → rest.length ≤ l.length := by
  intro l
  induction l with
  | nil => intro c rest h; simp [uriBody] at h
  | cons b r ih =>
      intro c rest h
      rw [uriBody] at h
      by_cases h62 : (b == 62) = true
      · rw [if_pos h62] at h
        simp only [Option.some.injEq, Prod.mk.injEq] at h
        rw [← h.2]
        simp
      · rw [if_neg h62] at h
        by_cases hws : (b ≤ 32 || b == 60) = true
        · rw [if_pos hws] at h; exact absurd h (by simp)
        · rw [if_neg hws] at h
          cases hrec : uriBody r with
          | none => rw [hrec] at h; exact absurd h (by simp)
          | some p =>
              obtain ⟨c2, rest2⟩ := p
              rw [hrec] at h
              simp only [Option.some.injEq, Prod.mk.injEq] at h
              rw [← h.2]
              have := ih c2 rest2 hrec
              simp only [List.length_cons]
              omega

theorem autolinkScan_le (r : List Nat) (nd : Inline) (rest : List Nat)
    (h : autolinkScan r = some (nd, rest)) : rest.length ≤ r.length := by
  cases hu : uriBody r with
  | none => rw [autolinkScan, hu] at h; exact absurd h (by simp)
  | some p =>
      obtain ⟨body, rest2⟩ := p
      have hle := uriBody_le r body rest2 hu
      simp only [autolinkScan, hu] at h
      cases hs : schemeSplit body with
      | none =>
          simp only [hs] at h
          by_cases he : emailOK body = true
          · rw [if_pos he] at h
            simp only [Option.some.injEq, Prod.mk.injEq] at h
            rw [← h.2]; exact hle
          · rw [if_neg he] at h; exact absurd h (by simp)
      | some q =>
          obtain ⟨sch, after⟩ := q
          simp only [hs] at h
          by_cases hok : schemeOK sch = true
          · rw [if_pos hok] at h
            simp only [Option.some.injEq, Prod.mk.injEq] at h
            rw [← h.2]; exact hle
          · rw [if_neg hok] at h
            by_cases he : emailOK body = true
            · rw [if_pos he] at h
              simp only [Option.some.injEq, Prod.mk.injEq] at h
              rw [← h.2]; exact hle
            · rw [if_neg he] at h; exact absurd h (by simp)

theorem tagNameScan_le (l nm rest : List Nat) (h : tagNameScan l = some (nm, rest)) :
    rest.length ≤ l.length := by
  cases l with
  | nil => simp [tagNameScan] at h
  | cons b r =>
      rw [tagNameScan] at h
      by_cases ha : isAlphaB b = true
      · rw [if_pos ha] at h
        simp only [Option.some.injEq, Prod.mk.injEq] at h
        rw [← h.2]
        simpa using List.length_drop_le _ _
      · rw [if_neg ha] at h; exact absurd h (by simp)

theorem tagTail_le :
    ∀ fuel l c rest, tagTail fuel l = some (c, rest) → rest.length ≤ l.length := by
  intro fuel
  induction fuel with
  | zero => intro l c rest h; simp [tagTail] at h
  | succ f ih =>
      intro l c rest h
      cases l with
      | nil => simp [tagTail] at h
      | cons b r =>
          rw [tagTail] at h
          by_cases h62 : (b == 62) = true
          · rw [if_pos h62] at h
            simp only [Option.some.injEq, Prod.mk.injEq] at h
            rw [← h.2]
            simp
          · rw [if_neg h62] at h
            by_cases h60 : (b == 60) = true
            · rw [if_pos h60] at h; exact absurd h (by simp)
            · rw [if_neg h60] at h
              by_cases hq : (b == 34 || b == 39) = true
              · rw [if_pos hq] at h
                cases hst : scanThrough [b] r with
                | none => simp only [hst] at h; exact absurd h (by simp)
                | some p =>
                    obtain ⟨c1, rest1⟩ := p
                    simp only [hst] at h
                    cases htt : tagTail f rest1 with
                    | none => simp only [htt] at h; exact absurd h (by simp)
                    | some q =>
                        obtain ⟨c2, rest2⟩ := q
                        simp only [htt] at h
                        simp only [Option.some.injEq, Prod.mk.injEq] at h
                        rw [← h.2]
                        have h1 := scanThrough_le [b] r c1 rest1 hst
                        have h2 := ih rest1 c2 rest2 htt
                        simp only [List.length_cons]
                        omega
              · rw [if_neg hq] at h
                cases htt : tagTail f r with
                | none => simp only [htt] at h; exact absurd h (by simp)
                | some q =>
                    obtain ⟨c2, rest2⟩ := q
                    simp only [htt] at h
                    simp only [Option.some.injEq, Prod.mk.injEq] at h
                    rw [← h.2]
                    have := ih r c2 rest2 htt
                    simp only [List.length_cons]
                    omega

theorem htmlTagCore_le (rr c rest : List Nat) (h : htmlTagCore rr = some (c, rest)) :
    rest.length ≤ rr.length := by
  cases hn : tagNameScan rr with
  | none => rw [htmlTagCore, hn] at h; exact absurd h (by simp)
  | some p =>
      obtain ⟨nm, r3⟩ := p
      simp only [htmlTagCore, hn] at h
      cases ht : tagTail (r3.length + 1) r3 with
      | none => simp only [ht] at h; exact absurd h (by simp)
      | some q =>
          obtain ⟨c2, rest2⟩ := q
          simp only [ht, Option.some.injEq, Prod.mk.injEq] at h
          rw [← h.2]
          have h1 := tagNameScan_le rr nm r3 hn
          have h2 := tagTail_le (r3.length + 1) r3 c2 rest2 ht
          omega

theorem htmlTagScan_le (r c rest : List Nat) (h : htmlTagScan r = some (c, rest)) :
    rest.length ≤ r.length := by
  cases r with
  | nil => simp [htmlTagScan] at h
  | cons b r2 =>
      rw [htmlTagScan] at h
      by_cases h47 : (b == 47) = true
      · rw [if_pos h47] at h
        cases hc : htmlTagCore r2 with
        | none => rw [hc] at h; exact absurd h (by simp)
        | some p =>
            obtain ⟨c2, rest2⟩ := p
            rw [hc] at h
            simp only [Option.map_some', Option.map_some, Option.some.injEq, Prod.mk.injEq] at h
            rw [← h.2]
            have := htmlTagCore_le r2 c2 rest2 hc
            simp only [List.length_cons]
            omega
      · rw [if_neg h47] at h
        have := htmlTagCore_le (b :: r2) c rest h
        exact this

theorem htmlMiscScan_le (r c rest : List Nat) (h : htmlMiscScan r = some (c, rest)) :
    rest.length ≤ r.length := by
  have hdrop : ∀ k : Nat, (r.drop k).length ≤ r.length := by
    intro k; simpa using List.length_drop_le _ _
  rw [htmlMiscScan] at h
  by_cases h1 : ([33, 45, 45].isPrefixOf r) = true
  · rw [if_pos h1] at h
    cases hst : scanThrough [45, 45, 62] (r.drop 3) with
    | none => rw [hst] at h; exact absurd h (by simp)
    | some p =>
        obtain ⟨c2, rest2⟩ := p
        rw [hst] at h
        simp only [Option.some.injEq, Prod.mk.injEq] at h
        rw [← h.2]
        have := scanThrough_le [45, 45, 62] (r.drop 3) c2 rest2 hst
        have := hdrop 3
        omega
  · rw [if_neg h1] at h
    by_cases h2 : ([33, 91, 67, 68, 65, 84, 65, 91].isPrefixOf r) = true
    · rw [if_pos h2] at h
      cases hst : scanThrough [93, 93, 62] (r.drop 8) with
      | none => rw [hst] at h; exact absurd h (by simp)
      | some p =>
          obtain ⟨c2, rest2⟩ := p
          rw [hst] at h
          simp only [Option.some.injEq, Prod.mk.injEq] at h
          rw [← h.2]
          have := scanThrough_le [93, 93, 62] (r.drop 8) c2 rest2 hst
          have := hdrop 8
          omega
    · rw [if_neg h2] at h
      by_cases h3 : ([63].isPrefixOf r) = true
      · rw [if_pos h3] at h
        cases hst : scanThrough [63, 62] (r.drop 1) with
        | none => rw [hst] at h; exact absurd h (by simp)
        | some p =>
            obtain ⟨c2, rest2⟩ := p
            rw [hst] at h
            simp only [Option.map_some', Option.map_some, Option.some.injEq,
              Prod.mk.injEq] at h
            rw [← h.2]
            have := scanThrough_le [63, 62] (r.drop 1) c2 rest2 hst
            have := hdrop 1
            omega
      · rw [if_neg h3] at h
        by_cases h4 : (([33].isPrefixOf r &&
            (match r.drop 1 with | b :: _ => isAlphaB b | [] => false)) = true)
        · rw [if_pos h4] at h
          cases hst : scanThrough [62] (r.drop 1) with
          | none => rw [hst] at h; exact absurd h (by simp)
          | some p =>
              obtain ⟨c2, rest2⟩ := p
              rw [hst] at h
              simp only [Option.map_some', Option.map_some, Option.some.injEq,
                Prod.mk.injEq] at h
              rw [← h.2]
              have := scanThrough_le [62] (r.drop 1) c2 rest2 hst
              have := hdrop 1
              omega
        · rw [if_neg h4] at h
          exact absurd h (by simp)

theorem htmlInlineScan_le (r c rest : List Nat) (h : htmlInlineScan r = some (c, rest)) :
    rest.length ≤ r.length := by
  rw [htmlInlineScan] at h
  cases hm : htmlMiscScan r with
  | none =>
      rw [hm] at h
      exact htmlTagScan_le r c rest h
  | some p =>
      obtain ⟨c2, rest2⟩ := p
      rw [hm] at h
      simp only [Option.some.injEq, Prod.mk.injEq] at h
      rw [← h.2]
      exact htmlMiscScan_le r c2 rest2 hm

theorem skipWs_le (l : List Nat) : (skipWs l).length ≤ l.length := by
  induction l with
  | nil => simp [skipWs]
  | cons b r ih =>
      rw [skipWs]
      by_cases hw : isWsB b = true
      · rw [if_pos hw]
        simp only [List.length_cons]
        omega
      · rw [if_neg hw]

theorem bareDest_le : ∀ (d : Nat) (l : List Nat), (bareDest d l).2.length ≤ l.length := by
  intro d l
  induction l generalizing d with
  | nil => simp [bareDest]
  | cons b r ih =>
      rw [bareDest]
      by_cases h1 : b ≤ 32
      · rw [if_pos h1]
      · rw [if_neg h1]
        by_cases h2 : (b == 40) = true
        · rw [if_pos h2]
          simp only [List.length_cons]
          have := ih (d + 1)
          omega
        · rw [if_neg h2]
          by_cases h3 : (b == 41) = true
          · rw [if_pos h3]
            by_cases h4 : (d == 0) = true
            · rw [if_pos h4]
              simp
            · rw [if_neg h4]
              simp only [List.length_cons]
              have := ih (d - 1)
              omega
          · rw [if_neg h3]
            simp only [List.length_cons]
            have := ih d
            omega

theorem angleDest_le :
    ∀ l c rest, angleDest l = some (c, rest) → rest.length ≤ l.length := by
  intro l
  induction l with
  | nil => intro c rest h; simp [angleDest] at h
  | cons b r ih =>
      intro c rest h
      rw [angleDest] at h
      by_cases h1 : (b == 62) = true
      · rw [if_pos h1] at h
        simp only [Option.some.injEq, Prod.mk.injEq] at h
        rw [← h.2]
        simp
      · rw [if_neg h1] at h
        by_cases h2 : (b == 60 || b == 10) = true
        · rw [if_pos h2] at h; exact absurd h (by simp)
        · rw [if_neg h2] at h
          cases hrec : angleDest r with
          | none => rw [hrec] at h; exact absurd h (by simp)
          | some p =>
              obtain ⟨c2, rest2⟩ := p
              rw [hrec] at h
              simp only [Option.some.injEq, Prod.mk.injEq] at h
              rw [← h.2]
              have := ih c2 rest2 hrec
              simp only [List.length_cons]
              omega

theorem destScan_le (r c rest : List Nat) (h : destScan r = some (c, rest)) :
    rest.length ≤ r.length := by
  cases r with
  | nil =>
      simp only [destScan, bareDest, Option.some.injEq, Prod.mk.injEq] at h
      rw [← h.2]
  | cons b r2 =>
      rw [destScan] at h
      by_cases h60 : (b == 60) = true
      · rw [if_pos h60] at h
        have := angleDest_le r2 c rest h
        simp only [List.length_cons]
        omega
      · rw [if_neg h60] at h
        simp only [Option.some.injEq] at h
        have := bareDest_le 0 (b :: r2)
        rw [h] at this
        simpa using this

theorem titleScan_le (l c rest : List Nat) (h : titleScan l = some (c, rest)) :
    rest.length ≤ l.length := by
  cases l with
  | nil => simp [titleScan] at h
  | cons b r =>
      rw [titleScan] at h
      by_cases h1 : (b == 34 || b == 39) = true
      · rw [if_pos h1] at h
        cases hst : scanThrough [b] r with
        | none => rw [hst] at h; exact absurd h (by simp)
        | some p =>
            obtain ⟨c2, rest2⟩ := p
            rw [hst] at h
            simp only [Option.some.injEq, Prod.mk.injEq] at h
            rw [← h.2]
            have := scanThrough_le [b] r c2 rest2 hst
            simp only [List.length_cons]
            omega
      · rw [if_neg h1] at h
        by_cases h2 : (b == 40) = true
        · rw [if_pos h2] at h
          cases hst : scanThrough [41] r with
          | none => rw [hst] at h; exact absurd h (by simp)
          | some p =>
              obtain ⟨c2, rest2⟩ := p
              rw [hst] at h
              simp only [Option.some.injEq, Prod.mk.injEq] at h
              rw [← h.2]
              have := scanThrough_le [41] r c2 rest2 hst
              simp only [List.length_cons]
              omega
        · rw [if_neg h2] at h; exact absurd h (by simp)

theorem parenAfter_le (dest title l d2 t2 rest : List Nat)
    (h : parenAfter dest title l = some (d2, t2, rest)) : rest.length ≤ l.length := by
  cases l with
  | nil => simp [parenAfter] at h
  | cons b r =>
      rw [parenAfter] at h
      by_cases h41 : (b == 41) = true
      · rw [if_pos h41] at h
        simp only [Option.some.injEq, Prod.mk.injEq] at h
        rw [← h.2.2]
        simp
      · rw [if_neg h41] at h
        exact absurd h (by simp)

theorem linkSuffix_le (r dest title rest : List Nat)
    (h : linkSuffix r = some (dest, title, rest)) : rest.length ≤ r.length := by
  cases r with
  | nil => simp [linkSuffix] at h
  | cons b r2 =>
      rw [linkSuffix] at h
      by_cases h40 : (b == 40) = true
      · rw [if_pos h40] at h
        cases hd : destScan (skipWs r2) with
        | none => rw [hd] at h; exact absurd h (by simp)
        | some p =>
            obtain ⟨d2, r4⟩ := p
            simp only [hd] at h
            have hws2 : (skipWs r2).length ≤ r2.length := skipWs_le r2
            have hd2 := destScan_le (skipWs r2) d2 r4 hd
            have hws4 : (skipWs r4).length ≤ r4.length := skipWs_le r4
            cases ht : titleScan (skipWs r4) with
            | none =>
                simp only [ht] at h
                have := parenAfter_le d2 [] (skipWs r4) dest title rest h
                simp only [List.length_cons]
                omega
            | some q =>
                obtain ⟨t2, r6⟩ := q
                simp only [ht] at h
                have ht2 := titleScan_le (skipWs r4) t2 r6 ht
                have hws6 : (skipWs r6).length ≤ r6.length := skipWs_le r6
                have := parenAfter_le d2 t2 (skipWs r6) dest title rest h
                simp only [List.length_cons]
                omega
      · rw [if_neg h40] at h
        exact absurd h (by simp)

/-! ### Totality of the inline scanner -/

/-- Bracket resolution either falls back to literal text or consumes at
least the destination suffix; its delimiter pass cannot run out of
fuel. -/
theorem brResolve_le (above : List IItem) (img : Bool) (below : List IItem) (r : List Nat)
    (fb : StepRes) :
    brResolve above img below r fb = fb ∨
    ∃ s2, brResolve above img below r fb = .next s2 ∧ s2.rest.length ≤ r.length := by
  rw [brResolve]
  cases hls : linkSuffix r with
  | none => exact Or.inl rfl
  | some q =>
      obtain ⟨dest, title, rest2⟩ := q
      cases hpe : procEmph (pFuel above.reverse) [] above.reverse with
      | none =>
          exfalso
          have hfb : 2 * (sumD ([] : List IItem) + sumD above.reverse) +
              (above.reverse).length < pFuel above.reverse := by
            simp only [sumD, pFuel]
            omega
          have := procEmph_total (pFuel above.reverse) [] above.reverse hfb
          rw [hpe] at this
          simp at this
      | some children =>
          refine Or.inr ⟨_, rfl, ?_⟩
          show rest2.length ≤ r.length
          exact linkSuffix_le r dest title rest2 hls

/-- Every scanner step either finishes or consumes at least one byte;
the fail outcome (exhaustion of the inner delimiter-pass fuel) is ruled
out by the delimiter-pass bound. -/
theorem scanStep_cases (s : SScan) :
    (∃ its, scanStep s = .done its) ∨
    (∃ s2, scanStep s = .next s2 ∧ s2.rest.length < s.rest.length) := by
  obtain ⟨rest, items, txt, lastB⟩ := s
  cases rest with
  | nil => exact Or.inl ⟨_, rfl⟩
  | cons b r =>
      simp only [scanStep]
      have hlenc : (b :: r).length = r.length + 1 := rfl
      by_cases hb1 : (b == 42 || b == 95) = true
      · rw [if_pos hb1]
        refine Or.inr ⟨_, rfl, ?_⟩
        show ((b :: r).drop (runLen b (b :: r))).length < (b :: r).length
        have hrun : runLen b (b :: r) = runLen b r + 1 := by simp [runLen]
        rw [List.length_drop]
        omega
      · rw [if_neg hb1]
        by_cases hb2 : (b == 96) = true
        · rw [if_pos hb2]
          have hrun : runLen 96 (b :: r) = runLen 96 r + 1 := by
            have : b = 96 := by simpa using hb2
            subst this
            simp [runLen]
          cases hf : findRun (runLen 96 (b :: r))
              (((b :: r).drop (runLen 96 (b :: r))).length + 1)
              ((b :: r).drop (runLen 96 (b :: r))) with
          | some p =>
              obtain ⟨content, rest2⟩ := p
              refine Or.inr ⟨_, rfl, ?_⟩
              show rest2.length < (b :: r).length
              have h1 := findRun_le _ _ _ _ _ hf
              have h2 : ((b :: r).drop (runLen 96 (b :: r))).length =
                  (b :: r).length - runLen 96 (b :: r) := List.length_drop _ _
              omega
          | none =>
              refine Or.inr ⟨_, rfl, ?_⟩
              show ((b :: r).drop (runLen 96 (b :: r))).length < (b :: r).length
              rw [List.length_drop]
              omega
        · rw [if_neg hb2]
          by_cases hb3 : (b == 91) = true
          · rw [if_pos hb3]
            exact Or.inr ⟨_, rfl, by simp⟩
          · rw [if_neg hb3]
            by_cases hb4 : (b == 33 && r.head? == some 91) = true
            · rw [if_pos hb4]
              refine Or.inr ⟨_, rfl, ?_⟩
              show r.tail.length < (b :: r).length
              have : r.tail.length ≤ r.length := by
                cases r <;> simp
              omega
            · rw [if_neg hb4]
              by_cases hb5 : (b == 93) = true
              · rw [if_pos hb5]
                cases hsb : splitBracket (flushT items txt) with
                | none => exact Or.inr ⟨_, rfl, by simp⟩
                | some p =>
                    obtain ⟨above, img, below⟩ := p
                    rcases brResolve_le above img below r
                        (.next ⟨r, popBracket (flushT items txt), [93], some 93⟩) with
                      hfb | ⟨s2, hbr, hle⟩
                    · refine Or.inr ⟨_, hfb, by simp⟩
                    · exact Or.inr ⟨s2, hbr, by simp only [List.length_cons]; omega⟩
              · rw [if_neg hb5]
                by_cases hb6 : (b == 60) = true
                · rw [if_pos hb6]
                  cases hal : autolinkScan r with
                  | some p =>
                      obtain ⟨nd, rest2⟩ := p
                      refine Or.inr ⟨_, rfl, ?_⟩
                      show rest2.length < (b :: r).length
                      have := autolinkScan_le r nd rest2 hal
                      simp only [List.length_cons]
                      omega
                  | none =>
                      cases hhi : htmlInlineScan r with
                      | some p =>
                          obtain ⟨consumed, rest2⟩ := p
                          refine Or.inr ⟨_, rfl, ?_⟩
                          show rest2.length < (b :: r).length
                          have := htmlInlineScan_le r consumed rest2 hhi
                          simp only [List.length_cons]
                          omega
                      | none => exact Or.inr ⟨_, rfl, by simp⟩
                · rw [if_neg hb6]
                  by_cases hb7 : (b == 10) = true
                  · rw [if_pos hb7]
                    exact Or.inr ⟨_, rfl, by simp⟩
                  · rw [if_neg hb7]
                    exact Or.inr ⟨_, rfl, by simp⟩

theorem scanLoop_total :
    ∀ fuel s, s.rest.length < fuel → (scanLoop fuel s).isSome := by
  intro fuel
  induction fuel with
  | zero => intro s h; omega
  | succ f ih =>
      intro s h
      rcases scanStep_cases s with ⟨its, hd⟩ | ⟨s2, hn, hlt⟩
      · simp [scanLoop, hd]
      · rw [scanLoop, hn]
        exact ih s2 (by omega)

theorem parseInlines_isSome (T : List Nat) : (parseInlines T).isSome := by
  rw [parseInlines]
  have hs := scanLoop_total (T.length + 1) ⟨T, [], [], none⟩ (by simp)
  cases hl : scanLoop (T.length + 1) ⟨T, [], [], none⟩ with
  | none => rw [hl] at hs; simp at hs
  | some its =>
      have hb : 2 * (sumD ([] : List IItem) + sumD its) + its.length < pFuel its := by
        simp only [sumD, pFuel]
        omega
      have := procEmph_total (pFuel its) [] its hb
      cases hp : procEmph (pFuel its) [] its with
      | none => rw [hp] at this; simp at this
      | some i => simp [hp]

/-! ### Totality of the block phase -/

theorem countLead_le (l : List Nat) : countLead l ≤ l.length := by
  induction l with
  | nil => simp [countLead]
  | cons b r ih =>
      rw [countLead]
      by_cases hb : (b == 32) = true
      · rw [if_pos hb]
        simp only [List.length_cons]
        omega
      · rw [if_neg hb]
        simp

theorem stripOneSp_le (r : List Nat) : (stripOneSp r).length ≤ r.length := by
  cases r with
  | nil => simp [stripOneSp]
  | cons b r2 =>
      rw [stripOneSp]
      by_cases hb : (b == 32) = true
      · rw [if_pos hb]
        simp
      · rw [if_neg hb]

theorem bqMarker_lt (l r2 : List Nat) (h : bqMarker l = some r2) : r2.length < l.length := by
  rw [bqMarker] at h
  by_cases hc : 3 < countLead l
  · rw [if_pos hc] at h; exact absurd h (by simp)
  · rw [if_neg hc] at h
    cases hsl : stripLead l with
    | nil => rw [hsl] at h; exact absurd h (by simp)
    | cons b r =>
        rw [hsl] at h
        have h2 : (if (b == 62) = true then some (stripOneSp r) else none) = some r2 := h
        by_cases hb : (b == 62) = true
        · rw [if_pos hb] at h2
          simp only [Option.some.injEq] at h2
          have h1 : (stripLead l).length = l.length - countLead l := List.length_drop _ _
          rw [hsl] at h1
          have h4 := stripOneSp_le r
          have h3 := countLead_le l
          simp only [List.length_cons] at h1
          rw [← h2]
          omega
        · rw [if_neg hb] at h2; exact absurd h2 (by simp)

theorem markerTail_le (lead mlen : Nat) (after : List Nat) (w : Nat) (rest : List Nat)
    (h : markerTail lead mlen after = some (w, rest)) : rest.length ≤ after.length := by
  rw [markerTail] at h
  by_cases he : after.isEmpty = true
  · rw [if_pos he] at h
    simp only [Option.some.injEq, Prod.mk.injEq] at h
    rw [← h.2]
    simp
  · rw [if_neg he] at h
    simp only at h
    by_cases h0 : (countLead after == 0) = true
    · rw [if_pos h0] at h; exact absurd h (by simp)
    · rw [if_neg h0] at h
      by_cases h4 : countLead after ≤ 4
      · rw [if_pos h4] at h
        simp only [Option.some.injEq, Prod.mk.injEq] at h
        rw [← h.2]
        simpa using List.length_drop_le _ _
      · rw [if_neg h4] at h
        simp only [Option.some.injEq, Prod.mk.injEq] at h
        rw [← h.2]
        simpa using List.length_drop_le _ _

theorem listMarker_lt (l : List Nat) (bu : Bool) (m st w : Nat) (rest : List Nat)
    (h : listMarker l = some (bu, m, st, w, rest)) : rest.length < l.length := by
  rw [listMarker] at h
  by_cases hc : 3 < countLead l
  · rw [if_pos hc] at h; exact absurd h (by simp)
  · rw [if_neg hc] at h
    have hsll : (stripLead l).length = l.length - countLead l := List.length_drop _ _
    have hcll := countLead_le l
    cases hsl : stripLead l with
    | nil => simp only [hsl] at h; exact absurd h (by simp)
    | cons b r =>
        simp only [hsl] at h
        rw [hsl] at hsll
        simp only [List.length_cons] at hsll
        by_cases hb : (b == 45 || b == 43 || b == 42) = true
        · rw [if_pos hb] at h
          cases hmt : markerTail (countLead l) 1 r with
          | none => simp only [hmt] at h; exact absurd h (by simp)
          | some p =>
              obtain ⟨w2, rest2⟩ := p
              simp only [hmt, Option.map_some', Option.map_some, Option.some.injEq,
                Prod.mk.injEq] at h
              have := markerTail_le (countLead l) 1 r w2 rest2 hmt
              rw [← h.2.2.2.2]
              omega
        · rw [if_neg hb] at h
          by_cases hd : (1 ≤ digCount (b :: r) && digCount (b :: r) ≤ 9) = true
          · rw [if_pos hd] at h
            cases hdr : (b :: r).drop (digCount (b :: r)) with
            | nil => simp only [hdr] at h; exact absurd h (by simp)
            | cons d r2 =>
                simp only [hdr] at h
                by_cases hdd : (d == 46 || d == 41) = true
                · rw [if_pos hdd] at h
                  cases hmt : markerTail (countLead l) (digCount (b :: r) + 1) r2 with
                  | none => simp only [hmt] at h; exact absurd h (by simp)
                  | some p =>
                      obtain ⟨w2, rest2⟩ := p
                      simp only [hmt, Option.map_some', Option.map_some, Option.some.injEq,
                        Prod.mk.injEq] at h
                      have h1 := markerTail_le (countLead l) (digCount (b :: r) + 1) r2 w2 rest2 hmt
                      have h2 : ((b :: r).drop (digCount (b :: r))).length =
                          (b :: r).length - digCount (b :: r) := List.length_drop _ _
                      rw [hdr] at h2
                      simp only [List.length_cons] at h2
                      rw [← h.2.2.2.2]
                      omega
                · rw [if_neg hdd] at h; exact absurd h (by simp)
          · rw [if_neg hd] at h; exact absurd h (by simp)

/-- Every container-opening step stops or consumes at least one byte of
the line. -/
theorem openStep_cases (st : BState) (rest : List Nat) :
    (∃ st2 rest2, openStep st rest = .stop st2 rest2) ∨
    (∃ st2 rest2, openStep st rest = .step st2 rest2 ∧ rest2.length < rest.length) := by
  rw [openStep]
  by_cases hth : thematicLine rest = true
  · rw [if_pos hth]
    exact Or.inl ⟨_, _, rfl⟩
  · rw [if_neg hth]
    cases hbq : bqMarker rest with
    | some rest2 =>
        refine Or.inr ⟨_, _, rfl, ?_⟩
        exact bqMarker_lt rest rest2 hbq
    | none =>
        cases hlm : listMarker rest with
        | none => exact Or.inl ⟨_, _, rfl⟩
        | some q =>
            obtain ⟨bullet, mch, start, width, rest2⟩ := q
            have hlt := listMarker_lt rest bullet mch start width rest2 hlm
            by_cases hint : (isParaOpen st &&
                (!(bullet || start == 1) || isBlankL rest2)) = true
            · simp only [hint]
              exact Or.inl ⟨_, _, rfl⟩
            · simp only [Bool.not_eq_true] at hint
              simp only [hint]
              cases hsp : splitLastF (closeLeafSt st).stack with
              | none => exact Or.inr ⟨_, _, rfl, hlt⟩
              | some p =>
                  obtain ⟨outer, f⟩ := p
                  cases f with
                  | bq done => exact Or.inr ⟨_, _, rfl, hlt⟩
                  | itemF ind done => exact Or.inr ⟨_, _, rfl, hlt⟩
                  | listF b m s pe sw done =>
                      by_cases hcomp : (b == bullet && m == mch) = true
                      · simp only [hcomp]
                        exact Or.inr ⟨_, _, rfl, hlt⟩
                      · simp only [Bool.not_eq_true] at hcomp
                        simp only [hcomp]
                        exact Or.inr ⟨_, _, rfl, hlt⟩

theorem openConts_total :
    ∀ fuel st rest, rest.length < fuel → (openConts fuel st rest).isSome := by
  intro fuel
  induction fuel with
  | zero => intro st rest h; omega
  | succ f ih =>
      intro st rest h
      rcases openStep_cases st rest with ⟨st2, rest2, hs⟩ | ⟨st2, rest2, hs, hlt⟩
      · simp [openConts, hs]
      · rw [openConts, hs]
        exact ih st2 rest2 (by omega)

theorem openStage_isSome (st : BState) (rest : List Nat) : (openStage st rest).isSome := by
  obtain ⟨doc, stack, leaf⟩ := st
  have hconts : ∀ (st2 : BState), (match openConts (rest.length + 1) st2 rest with
      | none => none
      | some (st3, rest3) =>
          some (if isBlankL rest3 then blankLine st3 rest3 else leafStage st3 rest3)).isSome := by
    intro st2
    have := openConts_total (rest.length + 1) st2 rest (by omega)
    cases hoc : openConts (rest.length + 1) st2 rest with
    | none => rw [hoc] at this; simp at this
    | some p =>
        obtain ⟨st3, rest3⟩ := p
        simp
  cases leaf with
  | none => exact hconts _
  | some lf =>
      cases lf with
      | para rl =>
          rw [openStage]
          cases hse : setextLine rest with
          | some lvl => simp
          | none => exact hconts _
      | codeF a b c d e => exact hconts _
      | codeI rl => exact hconts _
      | htmlL e rl => exact hconts _

theorem isSome_ite {α : Type} {c : Prop} [Decidable c] {x y : Option α}
    (hx : x.isSome) (hy : y.isSome) : (if c then x else y).isSome := by
  split
  · exact hx
  · exact hy

theorem lineRest_isSome (st : BState) (rest : List Nat) : (lineRest st rest).isSome := by
  rw [lineRest]
  by_cases hbl : isBlankL rest = true
  · rw [if_pos hbl]
    simp
  · rw [if_neg hbl]
    cases hlf : st.leaf with
    | none => exact openStage_isSome st rest
    | some lf =>
        cases lf with
        | para rl => exact openStage_isSome st rest
        | codeF fch flen find info rl => exact isSome_ite (by simp) (by simp)
        | codeI rl => exact isSome_ite (by simp) (openStage_isSome _ rest)
        | htmlL e rl =>
            cases e with
            | pats ps => exact isSome_ite (by simp) (by simp)
            | untilBlank => simp

theorem procLine_isSome (st : BState) (l : List Nat) : (procLine st l).isSome := by
  rw [procLine]
  have h1 : ∀ (st2 : BState) (rest : List Nat) (f : BState → BState),
      ((lineRest st2 rest).map f).isSome := by
    intro st2 rest f
    have := lineRest_isSome st2 rest
    cases hl : lineRest st2 rest with
    | none => rw [hl] at this; simp at this
    | some s2 => simp
  by_cases hful : ((contWalk st.stack l).1 == st.stack.length) = true
  · rw [if_pos hful]
    exact h1 _ _ _
  · rw [if_neg hful]
    by_cases hlaz : (isParaOpen st && !isBlankL (contWalk st.stack l).2 &&
        !startsConstruct (contWalk st.stack l).2) = true
    · rw [if_pos hlaz]
      simp
    · rw [if_neg hlaz]
      exact h1 _ _ _

theorem feedLs_isSome : ∀ (ls : List (List Nat)) (st : BState), (feedLs ls st).isSome := by
  intro ls
  induction ls with
  | nil => intro st; simp [feedLs]
  | cons l r ih =>
      intro st
      rw [feedLs]
      have := procLine_isSome st l
      cases hp : procLine st l with
      | none => rw [hp] at this; simp at this
      | some st2 => exact ih st2

theorem blockPhase_isSome (ls : List (List Nat)) : (blockPhase ls).isSome := by
  rw [blockPhase]
  have := feedLs_isSome ls ⟨[], [], none⟩
  cases hf : feedLs ls ⟨[], [], none⟩ with
  | none => rw [hf] at this; simp at this
  | some st => simp

/-! ### Totality of the tree assembly -/

theorem rawBlocks_isSome_aux :
    ∀ n : Nat, (∀ r : RawB, sizeOf r ≤ n → (rawToBlock r).isSome) ∧
      (∀ rs : List RawB, sizeOf rs ≤ n → (rawsToBlocks rs).isSome) := by
  intro n
  induction n with
  | zero =>
      constructor
      · intro r h
        exfalso
        cases r <;> simp at h <;> omega
      · intro rs h
        exfalso
        cases rs <;> simp at h <;> omega
  | succ n ih =>
      constructor
      · intro r h
        cases r with
        | para ls =>
            have := parseInlines_isSome (paraText ls)
            cases hp : parseInlines (paraText ls) with
            | none => rw [hp] at this; simp at this
            | some i => simp [rawToBlock, hp]
        | heading lvl c =>
            have := parseInlines_isSome c
            cases hp : parseInlines c with
            | none => rw [hp] at this; simp at this
            | some i => simp [rawToBlock, hp]
        | codeFence info ls => simp [rawToBlock]
        | codeInd ls => simp [rawToBlock]
        | htmlB ls => simp [rawToBlock]
        | thematic => simp [rawToBlock]
        | bquote cs =>
            have hsz : sizeOf cs ≤ n := by simp at h; omega
            have := ih.2 cs hsz
            cases hr : rawsToBlocks cs with
            | none => rw [hr] at this; simp at this
            | some bs => simp [rawToBlock, hr]
        | item cs =>
            have hsz : sizeOf cs ≤ n := by simp at h; omega
            have := ih.2 cs hsz
            cases hr : rawsToBlocks cs with
            | none => rw [hr] at this; simp at this
            | some bs => simp [rawToBlock, hr]
        | list b m s t is =>
            have hsz : sizeOf is ≤ n := by simp at h; omega
            have := ih.2 is hsz
            cases hr : rawsToBlocks is with
            | none => rw [hr] at this; simp at this
            | some bs => simp [rawToBlock, hr]
      · intro rs h
        cases rs with
        | nil => simp [rawsToBlocks]
        | cons r rest =>
            have hszr : sizeOf r ≤ n := by simp at h; omega
            have hszl : sizeOf rest ≤ n := by simp at h; omega
            have hhead := ih.1 r hszr
            have htail := ih.2 rest hszl
            cases hr : rawToBlock r with
            | none => rw [hr] at hhead; simp at hhead
            | some b =>
                cases hrest : rawsToBlocks rest with
                | none => rw [hrest] at htail; simp at htail
                | some bs => simp [rawsToBlocks, hr, hrest]

theorem rawsToBlocks_isSome (rs : List RawB) : (rawsToBlocks rs).isSome :=
  (rawBlocks_isSome_aux (sizeOf rs)).2 rs (Nat.le_refl _)

theorem tree_isSome (p : PState) : (Parser.Tree p).isSome := by
  rw [Parser.Tree]
  have hbp := blockPhase_isSome (finishLines p)
  cases hb : blockPhase (finishLines p) with
  | none => rw [hb] at hbp; simp at hbp
  | some rs => simpa using rawsToBlocks_isSome rs

/-- C1: parsing is total — for every byte stream, fed in any number of
`Write` calls, `Tree` returns a document (the fuel of the scanning and
delimiter passes always suffices: malformed constructs fall back to
literal text rather than failing), and rendering it with `RenderHTML`
under any options completes. -/
theorem parse_totality (cs : List (List Nat)) (o : ROpts) :
    ∃ d, Parser.Tree (writeAll newParser cs) = some d ∧
      ∃ h, RenderHTML o d = h := by
  have hs := tree_isSome (writeAll newParser cs)
  cases ht : Parser.Tree (writeAll newParser cs) with
  | none => rw [ht] at hs; simp at hs
  | some d => exact ⟨d, rfl, RenderHTML o d, rfl⟩
